import Mathlib

/-!
Verification of the TBAC (task-based access control) agent-tooling system.

The definitions below are a shallow embedding of the Python sources:
`app/core/security.py`, `app/core/data.py`, `app/core/approvals.py`,
`app/services/tool_manager.py`, `app/services/router.py` and
`app/services/matcher.py`.  Python dictionaries are modelled as association
lists (first binding wins, insertion replaces in place like a dict update),
parameter values as strings (the policy code only inspects parameter names and
the `approval_id` / `path` string values), and floating point confidence
scores as exact rationals.  The global policy tables (`USER_DB`,
`TASK_POLICY_DB`, `FILESYSTEM_POLICY`) are passed to each check explicitly —
the spec treats them as injected configuration — and the concrete tables from
`app/core/data.py` are reproduced verbatim below.
-/

namespace Tbac

/-- Association-list lookup, mirroring Python `dict.get`: first matching key. -/
def alookup {κ α : Type} [DecidableEq κ] : List (κ × α) → κ → Option α
  | [], _ => none
  | (k, v) :: rest, key => if k = key then some v else alookup rest key

/-- Association-list insert-or-replace, mirroring Python `d[k] = v`. -/
def ainsert {α : Type} (key : String) (v : α) : List (String × α) → List (String × α)
  | [] => [(key, v)]
  | (k, v') :: rest => if k = key then (key, v) :: rest else (k, v') :: ainsert key v rest

/-- `subOf needle hay` decides whether `needle` occurs as a contiguous
sublist of `hay`; mirrors Python's `needle in hay` on strings. -/
def subOf (needle : List Char) : List Char → Bool
  | [] => needle.isEmpty
  | c :: rest => needle.isPrefixOf (c :: rest) || subOf needle rest

/-- Python `needle in hay` for strings (substring containment). -/
def strContains (hay needle : String) : Bool :=
  subOf needle.toList hay.toList

/-- Python `str.lower()` (character-wise lower-casing). -/
def lowerStr (s : String) : String :=
  String.mk (s.data.map Char.toLower)

/-- Splitting a character list at every occurrence of `sep`, keeping empty
pieces; Python `s.split(sep)` for a one-character separator. -/
def splitOnChar (sep : Char) : List Char → List (List Char)
  | [] => [[]]
  | c :: rest =>
    if c = sep then [] :: splitOnChar sep rest
    else
      match splitOnChar sep rest with
      | [] => [[c]]
      | piece :: more => (c :: piece) :: more

/-- Python `path.split('/')`. -/
def splitSlash (s : String) : List String :=
  (splitOnChar '/' s.data).map (fun cs => String.mk cs)

/-- `app/core/models.py` `User` dataclass. -/
structure User where
  id : String
  name : String
  team : String
  permissions : List (String × String)
deriving DecidableEq

/-- `app/core/models.py` `Task` dataclass. -/
structure Task where
  name : String
  required_tools : List (String × String)
deriving DecidableEq

/-- `app/core/models.py` `ToolCall` dataclass. -/
structure ToolCall where
  tool_name : String
  action : String
  parameters : List (String × String)
deriving DecidableEq

/-- Python `user.permissions.get(tool, 'none')`. -/
def getPermission (user : User) (tool : String) : String :=
  (alookup user.permissions tool).getD "none"

/-- Python `params.get(key, default)` for string-valued parameters. -/
def getParamD (params : List (String × String)) (key default : String) : String :=
  (alookup params key).getD default

/-- The user table from `app/core/data.py` (`USER_DB`), verbatim. -/
def USER_DB : List (String × User) :=
  [("eng01", ⟨"eng01", "Alex", "Engineering",
      [("GitHub", "write"), ("FileSystem", "read_write"), ("Deployment", "deploy")]⟩),
   ("it01", ⟨"it01", "Priya", "IT",
      [("GitHub", "read"), ("FileSystem", "read"), ("Deployment", "deploy")]⟩),
   ("sales01", ⟨"sales01", "Marco", "Sales",
      [("GitHub", "none"), ("FileSystem", "read"), ("CRM", "write")]⟩)]

/-- The folder policy from `app/core/data.py` (`FILESYSTEM_POLICY`), verbatim. -/
def FILESYSTEM_POLICY : List (String × List String) :=
  [("Engineering", ["eng01"]), ("IT", ["it01"]), ("Sales", ["sales01"])]

/-- The task policy from `app/core/data.py` (`TASK_POLICY_DB`), verbatim. -/
def TASK_POLICY_DB : List (String × Task) :=
  [("Feature_Development", ⟨"Feature_Development", [("GitHub", "write")]⟩),
   ("Production_Support", ⟨"Production_Support", [("GitHub", "read"), ("FileSystem", "read")]⟩),
   ("Incident_Resolution", ⟨"Incident_Resolution", [("GitHub", "read"), ("FileSystem", "read")]⟩),
   ("Infrastructure_Maintenance", ⟨"Infrastructure_Maintenance",
      [("Deployment", "deploy"), ("FileSystem", "read")]⟩),
   ("Lead_Generation", ⟨"Lead_Generation", [("CRM", "write")]⟩),
   ("Proposal_Development", ⟨"Proposal_Development", [("FileSystem", "read")]⟩)]

/-- The per-requirement test of the loop body of `check_task_authorization`
(`app/core/security.py` lines 13–21): does the granted level satisfy the
required level? -/
def dominates (required granted : String) : Bool :=
  (required == "read" && (granted == "read" || granted == "read_write" || granted == "write")) ||
  (required == "write" && (granted == "write" || granted == "read_write")) ||
  (required == "deploy" && granted == "deploy")

/-- `check_task_authorization` from `app/core/security.py`, with the two
global tables passed explicitly. -/
def check_task_authorization (db : List (String × User)) (taskdb : List (String × Task))
    (user_id task_name : String) : Bool :=
  match alookup db user_id with
  | none => false
  | some user =>
    match alookup taskdb task_name with
    | none => false
    | some task =>
      task.required_tools.all (fun p => dominates p.2 (getPermission user p.1))

/-- The parts tuple of Python `PurePosixPath(s)`: an optional root (`'//'` for a
double-slash prefix, `'/'` for any other absolute path) followed by the
non-empty, non-`'.'` components of the string split on `'/'` (pathlib collapses
spurious slashes and single dots but keeps `'..'`). -/
def pathParts (s : String) : List String :=
  let comps := (splitSlash s).filter (fun piece => decide (piece ≠ "" ∧ piece ≠ "."))
  let root :=
    if "//".data.isPrefixOf s.data && !("///".data.isPrefixOf s.data) then ["//"]
    else if "/".data.isPrefixOf s.data then ["/"] else []
  root ++ comps

/-- The filtered parts list of `check_filesystem_access`
(`app/core/security.py` line 36): pathlib parts without `'/'` and `'.'`. -/
def fsParts (path : String) : List String :=
  (pathParts path).filter (fun part => decide (part ≠ "/" ∧ part ≠ "."))

/-- `check_filesystem_access` from `app/core/security.py`, with the folder
policy passed explicitly.  `PurePosixPath` never raises on a string argument,
so the `except` branch of the source is unreachable and has no counterpart. -/
def check_filesystem_access (policy : List (String × List String))
    (user_id path : String) : Bool :=
  if path = "" then false
  else
    let parts := fsParts path
    if decide (".." ∈ parts) then false
    else
      match parts with
      | [] => false
      | folder :: _ => decide (user_id ∈ (alookup policy folder).getD [])

/-- `TOOL_PARAM_POLICY` from `check_tool_authorization`
(`app/core/security.py` lines 70–77): per-tool parameter whitelist with a
sensitivity flag. -/
def TOOL_PARAM_POLICY : List (String × List (String × Bool)) :=
  [("GitHub", [("repo", false), ("content", true)]),
   ("FileSystem", [("path", false), ("content", true)]),
   ("Secrets", [("name", false)]),
   ("CRM", [("lead", false)]),
   ("DB", [("script", true), ("approval_id", false)]),
   ("Deployment", [("env", false), ("approval_id", false)])]

/-- The action → required-level heuristic of `check_tool_authorization`
(`app/core/security.py` lines 86–97). -/
def requiredLevel (action : String) : String :=
  let action_lower := lowerStr action
  if ["read", "get", "list", "fetch"].any (fun tok => strContains action_lower tok) then "read"
  else if ["deploy", "migrate", "rollback"].any (fun tok => strContains action_lower tok) then "deploy"
  else if ["delete", "remove", "destroy"].any (fun tok => strContains action_lower tok) then "write"
  else "write"

/-- The filesystem gate of `check_tool_authorization`
(`app/core/security.py` lines 80–83). -/
def fs_check (policy : List (String × List String)) (user_id : String) (tc : ToolCall) : Bool :=
  (tc.tool_name != "FileSystem") ||
    check_filesystem_access policy user_id (getParamD tc.parameters "path" "")

/-- The parameter whitelist / sensitivity loop of `check_tool_authorization`
(`app/core/security.py` lines 99–110). -/
def param_check (user : User) (tc : ToolCall) : Bool :=
  match alookup TOOL_PARAM_POLICY tc.tool_name with
  | none => true
  | some tool_policy =>
    tc.parameters.all (fun p =>
      match alookup tool_policy p.1 with
      | none => false
      | some sensitive =>
        !sensitive ||
          (getPermission user tc.tool_name == "write" ||
           getPermission user tc.tool_name == "read_write"))

/-- The Secrets-capability gate of `check_tool_authorization`
(`app/core/security.py` lines 112–116). -/
def secrets_check (user : User) (tc : ToolCall) : Bool :=
  (tc.tool_name != "Secrets") ||
    (getPermission user "Secrets" == "read" || getPermission user "Secrets" == "write")

/-- The final permission check of `check_tool_authorization`
(`app/core/security.py` lines 118–128). -/
def level_check (user : User) (tc : ToolCall) : Bool :=
  let required := requiredLevel tc.action
  let user_level := getPermission user tc.tool_name
  (required == "read" && (user_level == "read" || user_level == "read_write" || user_level == "write")) ||
  (required == "write" && (user_level == "write" || user_level == "read_write")) ||
  (required == "deploy" && user_level == "deploy")

/-- `check_tool_authorization` from `app/core/security.py`, the sequence of
early-return checks rendered as a short-circuit conjunction in source order. -/
def check_tool_authorization (db : List (String × User))
    (policy : List (String × List String)) (user_id : String) (tc : ToolCall) : Bool :=
  match alookup db user_id with
  | none => false
  | some user =>
    fs_check policy user_id tc && param_check user tc && secrets_check user tc &&
      level_check user tc

/-- The snapshot dict `{'tool':…, 'action':…, 'params':…}` that
`execute_tool_call` hands to `create_approval`. -/
structure ToolSnapshot where
  tool : String
  action : String
  params : List (String × String)
deriving DecidableEq

/-- One record of the `APPROVALS` store (`app/core/approvals.py`).  The
timestamp fields (`requested_at`, `approved_at`) carry no policy content and
are omitted from the embedding. -/
structure ApprovalRec where
  status : String
  requested_by : String
  toolcall : ToolSnapshot
  approved_by : Option String
deriving DecidableEq

/-- The in-memory `APPROVALS` dict of `app/core/approvals.py`. -/
def ApprovalStore : Type := List (String × ApprovalRec)

instance : DecidableEq ApprovalStore := by
  unfold ApprovalStore
  infer_instance

/-- `create_approval` from `app/core/approvals.py`.  The fresh uuid4 id is
supplied as the `aid` argument (the id source is modelled as an input); file
persistence and the audit append are effect-free best-effort writes with no
bearing on the store contents and are not modelled. -/
def create_approval (store : ApprovalStore) (aid requested_by : String)
    (toolcall : ToolSnapshot) : ApprovalStore × String :=
  (ainsert aid ⟨"pending", requested_by, toolcall, none⟩ store, aid)

/-- `approve_approval` from `app/core/approvals.py`: no-op returning `false`
on an unknown id, otherwise sets the status to `approved`, records the
approver and returns `true`. -/
def approve_approval (store : ApprovalStore) (approval_id approver_id : String) :
    Bool × ApprovalStore :=
  match alookup store approval_id with
  | none => (false, store)
  | some appr =>
    (true, ainsert approval_id { appr with status := "approved", approved_by := some approver_id } store)

/-- Result dict returned by the mock tool back-ends and by
`execute_tool_call` (`app/services/tool_manager.py`): the `status` key plus
the optional `message` / `data` / `approval_id` keys. -/
structure ToolResult where
  status : String
  message : Option String
  data : Option String
  approval_id : Option String
deriving DecidableEq

/-- `MockGitHub.read_repo` from `app/services/tool_manager.py`. -/
def mock_github_read_repo (db : List (String × User)) (policy : List (String × List String))
    (user_id repo : String) : ToolResult :=
  let tc : ToolCall := ⟨"GitHub", "read_repo", [("repo", repo)]⟩
  if !check_tool_authorization db policy user_id tc then
    ⟨"denied", some "Not authorized to read repo", none, none⟩
  else ⟨"ok", none, some ("Logs from " ++ repo ++ "... (mock)"), none⟩

/-- `MockGitHub.write_code` from `app/services/tool_manager.py`. -/
def mock_github_write_code (db : List (String × User)) (policy : List (String × List String))
    (user_id repo content : String) : ToolResult :=
  let tc : ToolCall := ⟨"GitHub", "write_code", [("repo", repo), ("content", content)]⟩
  if !check_tool_authorization db policy user_id tc then
    ⟨"denied", some "Not authorized to write code", none, none⟩
  else ⟨"ok", none, some ("Committed to " ++ repo ++ " (mock)"), none⟩

/-- `MockFileSystem.read_file` from `app/services/tool_manager.py`. -/
def mock_fs_read_file (db : List (String × User)) (policy : List (String × List String))
    (user_id path : String) : ToolResult :=
  let tc : ToolCall := ⟨"FileSystem", "read_file", [("path", path)]⟩
  if !check_tool_authorization db policy user_id tc then
    ⟨"denied", some "Not authorized to read file", none, none⟩
  else ⟨"ok", none, some ("Contents of " ++ path ++ " (mock)"), none⟩

/-- `MockFileSystem.write_file` from `app/services/tool_manager.py`. -/
def mock_fs_write_file (db : List (String × User)) (policy : List (String × List String))
    (user_id path content : String) : ToolResult :=
  let tc : ToolCall := ⟨"FileSystem", "write_file", [("path", path), ("content", content)]⟩
  if !check_tool_authorization db policy user_id tc then
    ⟨"denied", some "Not authorized to write file", none, none⟩
  else ⟨"ok", none, some ("Wrote to " ++ path ++ " (mock)"), none⟩

/-- `MockDeployment.deploy` from `app/services/tool_manager.py`. -/
def mock_deployment_deploy (db : List (String × User)) (policy : List (String × List String))
    (user_id env : String) : ToolResult :=
  let tc : ToolCall := ⟨"Deployment", "deploy", [("env", env)]⟩
  if !check_tool_authorization db policy user_id tc then
    ⟨"denied", some "Not authorized to deploy", none, none⟩
  else ⟨"ok", none, some ("Deployed to " ++ env ++ " (mock)"), none⟩

/-- `MockDB.migrate` from `app/services/tool_manager.py`. -/
def mock_db_migrate (db : List (String × User)) (policy : List (String × List String))
    (user_id script : String) : ToolResult :=
  let tc : ToolCall := ⟨"DB", "migrate", [("script", script)]⟩
  if !check_tool_authorization db policy user_id tc then
    ⟨"denied", some "Not authorized to migrate DB", none, none⟩
  else ⟨"ok", none, some "DB migration applied (mock)", none⟩

/-- `MockSecrets.get_secret` from `app/services/tool_manager.py`. -/
def mock_secrets_get_secret (db : List (String × User)) (policy : List (String × List String))
    (user_id name : String) : ToolResult :=
  let tc : ToolCall := ⟨"Secrets", "read_secret", [("name", name)]⟩
  if !check_tool_authorization db policy user_id tc then
    ⟨"denied", some "Not authorized to access secrets", none, none⟩
  else ⟨"ok", none, some ("secret:" ++ name ++ " (mock)"), none⟩

/-- `MockCRM.create_lead` from `app/services/tool_manager.py` (the opaque
`lead_data` value is modelled as a string). -/
def mock_crm_create_lead (db : List (String × User)) (policy : List (String × List String))
    (user_id lead_data : String) : ToolResult :=
  let tc : ToolCall := ⟨"CRM", "create_lead", [("lead", lead_data)]⟩
  if !check_tool_authorization db policy user_id tc then
    ⟨"denied", some "Not authorized to create lead", none, none⟩
  else ⟨"ok", none, some "Lead created (mock)", none⟩

/-- `_requires_approval` from `app/services/tool_manager.py` lines 105–106. -/
def requires_approval (tool action : String) : Bool :=
  (tool == "Deployment" && strContains (lowerStr action) "deploy") ||
  (tool == "DB" && strContains (lowerStr action) "migrate")

/-- The back-end dispatch section of `execute_tool_call`
(`app/services/tool_manager.py` lines 192–216).  The second component names
the mock back-end method that was invoked (`none` when no back-end was
invoked, i.e. the unknown-tool branch). -/
def dispatch_tool_call (db : List (String × User)) (policy : List (String × List String))
    (user_id : String) (tc : ToolCall) : ToolResult × Option String :=
  let action := tc.action
  let params := tc.parameters
  if tc.tool_name = "GitHub" then
    if strContains action "read" then
      (mock_github_read_repo db policy user_id (getParamD params "repo" "main"), some "GitHub.read_repo")
    else
      (mock_github_write_code db policy user_id (getParamD params "repo" "main")
        (getParamD params "content" ""), some "GitHub.write_code")
  else if tc.tool_name = "FileSystem" then
    if strContains action "read" then
      (mock_fs_read_file db policy user_id (getParamD params "path" "/"), some "FileSystem.read_file")
    else
      (mock_fs_write_file db policy user_id (getParamD params "path" "/")
        (getParamD params "content" ""), some "FileSystem.write_file")
  else if tc.tool_name = "Deployment" then
    (mock_deployment_deploy db policy user_id (getParamD params "env" "staging"), some "Deployment.deploy")
  else if tc.tool_name = "DB" then
    (mock_db_migrate db policy user_id (getParamD params "script" ""), some "DB.migrate")
  else if tc.tool_name = "Secrets" then
    (mock_secrets_get_secret db policy user_id (getParamD params "name" ""), some "Secrets.get_secret")
  else if tc.tool_name = "CRM" then
    (mock_crm_create_lead db policy user_id (getParamD params "lead" ""), some "CRM.create_lead")
  else (⟨"error", some "Unknown tool", none, none⟩, none)

/-- The outcome of one `execute_tool_call` run: the returned result dict, the
approvals store afterwards, and which back-end method (if any) was invoked. -/
structure ExecOutcome where
  result : ToolResult
  store : ApprovalStore
  dispatched : Option String
deriving DecidableEq

/-- `execute_tool_call` from `app/services/tool_manager.py` (the legacy
in-memory approvals branch; the Django-backed branch implements the same
pending/approved contract against a relational table).  `fresh` stands for
the uuid4 generated when a new approval has to be created; audit writes are
effect-free and not modelled. -/
def execute_tool_call (db : List (String × User)) (policy : List (String × List String))
    (store : ApprovalStore) (fresh user_id : String) (tc : ToolCall) : ExecOutcome :=
  if !check_tool_authorization db policy user_id tc then
    ⟨⟨"denied", some "Not authorized to perform tool call", none, none⟩, store, none⟩
  else if requires_approval tc.tool_name tc.action then
    let createBranch : ExecOutcome :=
      let created := create_approval store fresh user_id ⟨tc.tool_name, tc.action, tc.parameters⟩
      ⟨⟨"pending_approval", some "Action requires approval", none, some created.2⟩, created.1, none⟩
    match alookup tc.parameters "approval_id" with
    | none => createBranch
    | some approval_id =>
      if approval_id = "" then createBranch
      else
        match alookup store approval_id with
        | some appr =>
          if appr.status = "approved" then
            let d := dispatch_tool_call db policy user_id tc
            ⟨d.1, store, d.2⟩
          else
            ⟨⟨"pending_approval", some "Approval not granted yet", none, some approval_id⟩, store, none⟩
        | none =>
          ⟨⟨"pending_approval", some "Approval not granted yet", none, some approval_id⟩, store, none⟩
  else
    let d := dispatch_tool_call db policy user_id tc
    ⟨d.1, store, d.2⟩

/-- The granted level an id holds on a tool: `'none'` when the id is unknown
or holds no entry for the tool (`USER_DB.get` + `permissions.get(tool,'none')`). -/
def userLevel (db : List (String × User)) (uid tool : String) : String :=
  match alookup db uid with
  | none => "none"
  | some user => getPermission user tool

/-- The six tool names `execute_tool_call` dispatches on
(`app/services/tool_manager.py` lines 197–214). -/
def RECOGNIZED_TOOLS : List String :=
  ["GitHub", "FileSystem", "Deployment", "DB", "Secrets", "CRM"]

/-- An operation on the approvals store: a `create_approval` (with its
generated uuid4) or an `approve_approval`. -/
inductive StoreOp where
  | createOp (fresh requested_by : String) (toolcall : ToolSnapshot)
  | approveOp (approval_id approver_id : String)
deriving DecidableEq

/-- Effect of one store operation. -/
def applyOp (store : ApprovalStore) : StoreOp → ApprovalStore
  | .createOp fresh rb tcall => (create_approval store fresh rb tcall).1
  | .approveOp aid ap => (approve_approval store aid ap).2

/-- Effect of a sequence of store operations. -/
def applyOps (store : ApprovalStore) : List StoreOp → ApprovalStore
  | [] => store
  | op :: rest => applyOps (applyOp store op) rest

/-- Every `create` in the sequence uses an id that is fresh for the store it
hits — the uuid4 uniqueness assumption the source relies on (the spec calls
approval ids globally unique). -/
def FreshCreates : ApprovalStore → List StoreOp → Prop
  | _, [] => True
  | store, op :: rest =>
    (match op with
     | .createOp fresh _ _ => alookup store fresh = none
     | .approveOp _ _ => True) ∧ FreshCreates (applyOp store op) rest

/-- A reference item `{'task':…, 'text':…}` from `get_reference_items`
(`app/core/data.py`). -/
structure RefItem where
  task : String
  text : String
deriving DecidableEq

/-- ASCII whitespace for Python `str.strip()`. -/
def isSpaceChar (c : Char) : Bool :=
  c = ' ' || c = '\t' || c = '\n' || c = '\r'

/-- Python `str.strip()` (both-ends whitespace trim). -/
def stripStr (s : String) : String :=
  String.mk (((s.data.dropWhile isSpaceChar).reverse.dropWhile isSpaceChar).reverse)

/-- The result dict of `Router.route_prompt` (`app/services/router.py`):
`{'task','score','error'}`, with the float score modelled as an exact
rational. -/
structure RouteResult where
  task : Option String
  score : Option ℚ
  error : Option String
deriving DecidableEq

/-- The backward-compatible substring fallback loop of `Router.route_prompt`
(`app/services/router.py` lines 87–94): first item whose normalized text is a
non-empty substring of the lower-cased prompt. -/
def fallback_scan (items : List RefItem) (lprompt : String) : Option String :=
  match items with
  | [] => none
  | it :: rest =>
    let text := lowerStr (stripStr it.text)
    if text ≠ "" ∧ strContains lprompt text then some text
    else fallback_scan rest lprompt

/-- `best_pat` as computed by `Router.route_prompt`: the matcher's answer when
it produced one (`matcher_out` stands for `self.matcher.find_best_match
(lprompt)`, or `none` when the matcher is absent or raised), else the fallback
scan. -/
def best_pat_of (matcher_out : Option String) (items : List RefItem) (lprompt : String) :
    Option String :=
  match matcher_out with
  | some p => some p
  | none => fallback_scan items lprompt

/-- `Router.route_prompt` from `app/services/router.py`.  `pattern_to_task`
is `self._pattern_to_task`; the fire-and-forget `_submit_record` calls do not
affect the returned dict and are not modelled. -/
def route_prompt (pattern_to_task : List (String × String)) (matcher_out : Option String)
    (items : List RefItem) (prompt : String) (threshold : ℚ) : RouteResult :=
  let lprompt := lowerStr prompt
  match best_pat_of matcher_out items lprompt with
  | some best_pat =>
    if best_pat = "" then ⟨none, none, some "no match"⟩
    else
      let score : ℚ := (best_pat.length : ℚ) / ((max lprompt.length 1 : ℕ) : ℚ)
      if threshold ≤ score then ⟨alookup pattern_to_task best_pat, some score, none⟩
      else ⟨none, some score, some "no match (below threshold)"⟩
  | none => ⟨none, none, some "no match"⟩

/-! ### The Aho–Corasick matcher (`app/services/matcher.py`)

Patterns are handled as `List Char` (Python iterates the pattern string
character by character); the automaton is the Python node list
`[{'next': {ch: idx}, 'fail': int, 'outputs': [pattern]}, …]` with `next`
as a Char-keyed association list. -/

/-- One automaton node: `{'next': {ch: idx}, 'fail': int, 'outputs': […]}`. -/
structure ACNode where
  next : List (Char × Nat)
  fail : Nat
  outputs : List (List Char)
deriving DecidableEq

/-- The fresh node `{'next': {}, 'fail': 0, 'outputs': []}`. -/
def blankNode : ACNode := ⟨[], 0, []⟩

/-- Read `self._nodes[i]` (indices produced by the build are always in
range; the default is never hit on built automata). -/
def nd (nodes : List ACNode) (i : Nat) : ACNode :=
  nodes[i]?.getD blankNode

/-- Write `self._nodes[i] = f(self._nodes[i])`. -/
def updateNode (nodes : List ACNode) (i : Nat) (f : ACNode → ACNode) : List ACNode :=
  nodes.set i (f (nd nodes i))

/-- The character walk of `AhoCorasickMatcher.build` that inserts one
pattern into the goto trie (`matcher.py` lines 31–38), returning the new
node list and the node index where the pattern ends. -/
def insertPat : List ACNode → Nat → List Char → List ACNode × Nat
  | nodes, current, [] => (nodes, current)
  | nodes, current, c :: rest =>
    match alookup (nd nodes current).next c with
    | some nxt => insertPat nodes nxt rest
    | none =>
      let idx := nodes.length
      let nodes' := updateNode nodes current
        (fun node => { node with next := node.next ++ [(c, idx)] })
      insertPat (nodes' ++ [blankNode]) idx rest

/-- Inserting one pattern and appending it to the final node's outputs
(`matcher.py` line 39). -/
def addPattern (nodes : List ACNode) (pat : List Char) : List ACNode :=
  let r := insertPat nodes 0 pat
  updateNode r.1 r.2 (fun node => { node with outputs := node.outputs ++ [pat] })

/-- The normalized pattern of one build item:
`(it.get('text') or '').strip().lower()` as a character list. -/
def normText (s : String) : List Char :=
  (lowerStr (stripStr s)).data

/-- One iteration of the build loop over items (`matcher.py` lines 27–41):
skip empty patterns, insert into the trie, record the task under the pattern
unless the pattern is already mapped (first-inserted wins). -/
def buildGotoStep (acc : List ACNode × List (List Char × String)) (it : RefItem) :
    List ACNode × List (List Char × String) :=
  let pat := normText it.text
  if pat = [] then acc
  else
    (addPattern acc.1 pat,
     if (alookup acc.2 pat).isSome then acc.2 else acc.2 ++ [(pat, it.task)])

/-- The goto-trie phase of `AhoCorasickMatcher.build`: fold the build loop
over the items starting from the reset state `([root], {})`. -/
def buildGoto (items : List RefItem) : List ACNode × List (List Char × String) :=
  items.foldl buildGotoStep ([blankNode], [])

/-- The fail-chain walk `while f and ch not in self._nodes[f]['next']:
f = self._nodes[f]['fail']` (`matcher.py` lines 54–55 and 66–67).  The walk
descends to strictly shallower nodes each step, so `nodes.length` units of
fuel always suffice on a built automaton; the fuel is a totality device, not
part of the source semantics. -/
def walkFail (nodes : List ACNode) : Nat → Char → Nat → Nat
  | f, _, 0 => f
  | f, c, fuel + 1 =>
    if f ≠ 0 ∧ alookup (nd nodes f).next c = none then
      walkFail nodes (nd nodes f).fail c fuel
    else f

/-- The body of the BFS inner loop for one child edge `(c, s)` of node `r`
(`matcher.py` lines 51–57): compute the child's fail link and extend its
outputs with the fail target's outputs. -/
def processChild (nodes : List ACNode) (r : Nat) (c : Char) (s : Nat) : List ACNode :=
  let f := walkFail nodes (nd nodes r).fail c nodes.length
  let fl := (alookup (nd nodes f).next c).getD 0
  let nodes1 := updateNode nodes s (fun node => { node with fail := fl })
  updateNode nodes1 s
    (fun node => { node with outputs := node.outputs ++ (nd nodes1 fl).outputs })

/-- The BFS `while q:` loop of the fail-link phase (`matcher.py` lines
49–57): pop a node, process and enqueue each of its children.  Each node is
enqueued at most once, so `nodes.length` units of fuel always suffice. -/
def bfsRun : List ACNode → List Nat → Nat → List ACNode
  | nodes, _, 0 => nodes
  | nodes, [], _ + 1 => nodes
  | nodes, r :: rest, fuel + 1 =>
    let children := (nd nodes r).next
    let nodes' := children.foldl (fun acc p => processChild acc r p.1 p.2) nodes
    bfsRun nodes' (rest ++ children.map (fun p => p.2)) fuel

/-- The fail-link phase of `AhoCorasickMatcher.build` (`matcher.py` lines
44–57): zero out the root children's fails, seed the queue with them, run
the BFS. -/
def buildFails (nodes : List ACNode) : List ACNode :=
  let rootChildren := (nd nodes 0).next
  let nodes0 := rootChildren.foldl
    (fun acc p => updateNode acc p.2 (fun node => { node with fail := 0 })) nodes
  bfsRun nodes0 (rootChildren.map (fun p => p.2)) nodes.length

/-- The `AhoCorasickMatcher` object: node list plus `pattern_to_task`. -/
structure AhoCorasickMatcher where
  nodes : List ACNode
  pattern_to_task : List (List Char × String)
deriving DecidableEq

/-- `AhoCorasickMatcher.build` (`matcher.py` lines 21–57). -/
def build (items : List RefItem) : AhoCorasickMatcher :=
  let g := buildGoto items
  ⟨buildFails g.1, g.2⟩

/-- One scan transition of `find_best_match` (`matcher.py` lines 66–68):
follow fail links until a `c`-transition exists (or the root is reached),
then take the transition or fall back to the root. -/
def scanStep (nodes : List ACNode) (current : Nat) (c : Char) : Nat :=
  let w := walkFail nodes current c nodes.length
  (alookup (nd nodes w).next c).getD 0

/-- The best-update loop over one node's outputs (`matcher.py` lines
70–73): keep the first strictly longer pattern. -/
def updBest (best : Option (List Char)) (outs : List (List Char)) : Option (List Char) :=
  outs.foldl
    (fun b pat =>
      match b with
      | none => some pat
      | some b0 => if b0.length < pat.length then some pat else some b0) best

/-- The character scan of `find_best_match` (`matcher.py` lines 63–73). -/
def scanChars (nodes : List ACNode) : Nat → Option (List Char) → List Char → Option (List Char)
  | _, best, [] => best
  | current, best, c :: rest =>
    let current' := scanStep nodes current c
    let best' := updBest best (nd nodes current').outputs
    scanChars nodes current' best' rest

/-- `AhoCorasickMatcher.find_best_match` (`matcher.py` lines 59–74). -/
def find_best_match (m : AhoCorasickMatcher) (lprompt : String) : Option String :=
  if lprompt = "" ∨ m.nodes = [] then none
  else (scanChars m.nodes 0 none lprompt.data).map (fun cs => String.mk cs)

/-- The normalized non-empty pattern list of a build-item sequence, in
insertion order — the patterns the automaton is built from. -/
def patternsOf (items : List RefItem) : List (List Char) :=
  (items.map (fun it => normText it.text)).filter (fun p => decide (p ≠ []))

/-- `p` ends at position `i` of `q` (`q.take i` has `p` as a suffix). -/
def EndsAt (p q : List Char) (i : Nat) : Prop :=
  p <:+ q.take i

/-- `p` occurs as a contiguous substring of `q`. -/
def Occurs (p q : List Char) : Prop :=
  ∃ i, EndsAt p q i

/-- The task the spec associates to a pattern: the task of the first build
item whose normalized text is that (non-empty) pattern. -/
def firstTaskFor : List RefItem → List Char → Option String
  | [], _ => none
  | it :: rest, p =>
    if normText it.text = p ∧ p ≠ [] then some it.task else firstTaskFor rest p

/-! ### Proof-side definitions for the matcher verification -/

/-- The node reached from `current` by following goto edges along `s`. -/
def follow (ns : List ACNode) : Nat → List Char → Option Nat
  | current, [] => some current
  | current, c :: rest =>
    match alookup (nd ns current).next c with
    | some n => follow ns n rest
    | none => none

/-- The goto edge out of `m` labelled `c`. -/
def edgeTo (ns : List ACNode) (m : Nat) (c : Char) : Option Nat :=
  alookup (nd ns m).next c

/-- Structural well-formedness of the goto trie: edge labels at a node are
distinct, edges go strictly upward in index (so the edge relation is a
forest rooted at 0), a node has at most one parent, and every non-root node
has a parent. -/
structure TrieWF (ns : List ACNode) : Prop where
  nonnil : ns ≠ []
  keys_nodup : ∀ m, ((nd ns m).next.map Prod.fst).Nodup
  edge_lt : ∀ m c n, edgeTo ns m c = some n → n < ns.length ∧ m < n
  parent_uniq : ∀ m c m' c' n, edgeTo ns m c = some n → edgeTo ns m' c' = some n →
    m = m' ∧ c = c'
  has_parent : ∀ n, 0 < n → n < ns.length → ∃ m c, edgeTo ns m c = some n

/-- `s` is a string of the trie: some node is reached from the root along it. -/
def SMem (ns : List ACNode) (t : List Char) : Prop :=
  ∃ n, follow ns 0 t = some n

/-- The one-node extension step of `insertPat` (the `none` branch): add an
edge labelled `c` from `cur` to a fresh blank node. -/
def extends1 (ns : List ACNode) (cur : Nat) (c : Char) : List ACNode :=
  updateNode ns cur (fun node => { node with next := node.next ++ [(c, ns.length)] }) ++
    [blankNode]

/-- The longest proper suffix of `s` that is a trie string (the fail-link
target's string): the first trie string among `drop 1 s, drop 2 s, …, []`. -/
def failStr (ns : List ACNode) (s : List Char) : List Char :=
  (((List.range s.length).map (fun k => s.drop (k + 1))).find?
    (fun t => (follow ns 0 t).isSome)).getD []

/-- All fail links of the suffix-closure of `t` agree with `failStr` — the
premise under which a fail-chain walk computes the right thing.  `tns` is
the goto trie (for strings), `ns` the node list being read (for links). -/
def ChainOK (tns ns : List ACNode) (t : List Char) : Prop :=
  ∀ m t', follow tns 0 t' = some m → t' ≠ [] → t' <:+ t →
    follow tns 0 (failStr tns t') = some ((nd ns m).fail)

/-- Invariant of the goto phase: a well-formed trie whose strings are
exactly the prefixes of the patterns and whose outputs hold each pattern at
its end node. -/
structure GotoInv (ns : List ACNode) (pats : List (List Char)) : Prop where
  wf : TrieWF ns
  strings_iff : ∀ t, SMem ns t ↔ t = [] ∨ ∃ p ∈ pats, t <+: p
  outputs_iff : ∀ n p, p ∈ (nd ns n).outputs ↔ p ∈ pats ∧ follow ns 0 p = some n
  pats_nonnil : ∀ p ∈ pats, p ≠ []

/-- `n` lies at depth `d` of the trie (its string has length `d`). -/
def NDepth (tns : List ACNode) (n d : Nat) : Prop :=
  ∃ s, follow tns 0 s = some n ∧ s.length = d

/-- `n`'s fail link has been finalized: the target node of the longest
proper trie suffix of `n`'s string. -/
def FailOK (tns ns : List ACNode) (n : Nat) : Prop :=
  ∀ s, follow tns 0 s = some n → s ≠ [] →
    follow tns 0 (failStr tns s) = some ((nd ns n).fail)

/-- `n`'s outputs are final: exactly the patterns that are suffixes of `n`'s
string. -/
def OutOK (tns ns : List ACNode) (pats : List (List Char)) (n : Nat) : Prop :=
  ∀ s, follow tns 0 s = some n → ∀ p, p ∈ (nd ns n).outputs ↔ p ∈ pats ∧ p <:+ s

/-- A node whose fail/outputs the BFS has finalized: a root child (done in
the preamble) or a child of a popped node. -/
def DoneP (tns : List ACNode) (popped : List Nat) (n : Nat) : Prop :=
  (∃ c, edgeTo tns 0 c = some n) ∨ ∃ r ∈ popped, ∃ c, edgeTo tns r c = some n

/-- BFS queue shape: a block of depth-`d` nodes followed by a block of
depth-`d+1` nodes. -/
def QShape (tns : List ACNode) (q : List Nat) (d : Nat) : Prop :=
  ∃ qa qb, q = qa ++ qb ∧ (∀ n ∈ qa, NDepth tns n d) ∧ (∀ n ∈ qb, NDepth tns n (d + 1))

/-- Every non-root node strictly shallower than `d` has been popped. -/
def ShallowPopped (tns : List ACNode) (popped : List Nat) (d : Nat) : Prop :=
  ∀ m dm, 0 < m → NDepth tns m dm → dm < d → m ∈ popped

/-- The full BFS loop invariant, over the fixed goto trie `tns`, the pattern
list, the current node list, the popped list (ghost) and the queue. -/
structure BfsInv (tns : List ACNode) (pats : List (List Char)) (ns : List ACNode)
    (popped q : List Nat) : Prop where
  len_eq : ns.length = tns.length
  next_eq : ∀ n, (nd ns n).next = (nd tns n).next
  nodup : (popped ++ q).Nodup
  popped_pos : ∀ n ∈ popped, 0 < n
  q_pos : ∀ n ∈ q, 0 < n
  member_iff : ∀ n, (n ∈ popped ∨ n ∈ q) ↔ DoneP tns popped n
  done_fail : ∀ n, n ∈ popped ∨ n ∈ q → FailOK tns ns n
  done_out : ∀ n, n ∈ popped ∨ n ∈ q → OutOK tns ns pats n
  untouched : ∀ n, ¬(n ∈ popped ∨ n ∈ q) → (nd ns n).outputs = (nd tns n).outputs

/-- The post-BFS automaton contract: same topology as the trie, every fail
link and output list finalized. -/
structure FailsInv (tns ns : List ACNode) (pats : List (List Char)) : Prop where
  len_eq : ns.length = tns.length
  next_eq : ∀ n, (nd ns n).next = (nd tns n).next
  fail_ok : ∀ n, FailOK tns ns n
  out_ok : ∀ n, OutOK tns ns pats n

/-- `u` is the longest suffix of `t` that is a trie string (the scan-state
string after reading `t`). -/
def LongSuffix (tns : List ACNode) (t u : List Char) : Prop :=
  u <:+ t ∧ SMem tns u ∧ ∀ u', u' <:+ t → SMem tns u' → u'.length ≤ u.length

/-- The running-best invariant of the scan after reading `t`: `none` iff no
pattern occurs in `t`; otherwise the longest occurring pattern, ending
earliest among the longest. -/
def BestOK (pats : List (List Char)) (t : List Char) (best : Option (List Char)) : Prop :=
  (best = none ↔ ∀ p ∈ pats, ¬ Occurs p t) ∧
  (∀ b, best = some b → b ∈ pats ∧ Occurs b t ∧
    (∀ p ∈ pats, Occurs p t → p.length ≤ b.length) ∧
    (∃ i, i ≤ t.length ∧ EndsAt b t i ∧
      ∀ p ∈ pats, p.length = b.length → ∀ j, EndsAt p t j → i ≤ j))

example : find_best_match (build [⟨"T1", "abc"⟩, ⟨"T2", "bcd"⟩]) "xabcd" = some "abc" := by decide
example : find_best_match (build [⟨"T1", "ab"⟩, ⟨"T2", "xab"⟩]) "yxabz" = some "xab" := by decide
example : find_best_match (build []) "abc" = none := by decide
example : find_best_match (build [⟨"T1", "abc"⟩]) "ab" = none := by decide
example : find_best_match (build [⟨"T1", "He said  "⟩]) "xxhe saidyy" = some "he said" := by decide
example : alookup (build [⟨"T1", "abc"⟩, ⟨"T2", "ABC"⟩]).pattern_to_task "abc".data =
    some "T1" := by decide

example : check_task_authorization USER_DB TASK_POLICY_DB "eng01" "Feature_Development" = true := by decide
example : check_task_authorization USER_DB TASK_POLICY_DB "it01" "Feature_Development" = false := by decide
example : check_filesystem_access FILESYSTEM_POLICY "eng01" "/Engineering/project/README.md" = true := by decide
example : check_filesystem_access FILESYSTEM_POLICY "it01" "/Engineering/../IT/secret.txt" = false := by decide
example : check_filesystem_access FILESYSTEM_POLICY "eng01" "" = false := by decide
example : check_tool_authorization USER_DB FILESYSTEM_POLICY "eng01"
    ⟨"GitHub", "write_code", [("repo", "main"), ("content", "x")]⟩ = true := by decide
example : check_tool_authorization USER_DB FILESYSTEM_POLICY "sales01"
    ⟨"FileSystem", "read_file", [("path", "/Engineering/secret.txt")]⟩ = false := by decide
example : check_tool_authorization USER_DB FILESYSTEM_POLICY "eng01"
    ⟨"Deployment", "deploy", [("env", "staging")]⟩ = true := by decide
example : (execute_tool_call USER_DB FILESYSTEM_POLICY [] "uuid-1" "eng01"
    ⟨"Deployment", "deploy", [("env", "staging")]⟩).result.status = "pending_approval" := by decide
example : (execute_tool_call USER_DB FILESYSTEM_POLICY
    [("a1", ⟨"approved", "eng01", ⟨"Deployment", "deploy", [("env", "staging")]⟩, some "mgr01"⟩)]
    "uuid-2" "eng01"
    ⟨"Deployment", "deploy", [("env", "staging"), ("approval_id", "a1")]⟩).result.status = "ok" := by decide
example : (execute_tool_call USER_DB FILESYSTEM_POLICY [] "uuid-3" "sales01"
    ⟨"Deployment", "deploy", [("env", "staging")]⟩).result.status = "denied" := by decide
example : (execute_tool_call USER_DB FILESYSTEM_POLICY [] "uuid-4" "eng01"
    ⟨"GitHub", "write_code", [("repo", "main"), ("content", "x")]⟩).result.status = "ok" := by decide

/-! ### General lemmas about the association-list operations -/

theorem alookup_append_some {κ α : Type} [DecidableEq κ] {l₁ : List (κ × α)}
    (l₂ : List (κ × α)) {k : κ} {v : α} (h : alookup l₁ k = some v) :
    alookup (l₁ ++ l₂) k = some v := by
  induction l₁ with
  | nil => simp [alookup] at h
  | cons hd tl ih =>
    obtain ⟨k', v'⟩ := hd
    by_cases hk : k' = k
    · simp only [alookup, if_pos hk] at h ⊢
      exact h
    · simp only [alookup, if_neg hk] at h ⊢
      exact ih h

theorem alookup_append_none {κ α : Type} [DecidableEq κ] {l₁ : List (κ × α)}
    (l₂ : List (κ × α)) {k : κ} (h : alookup l₁ k = none) :
    alookup (l₁ ++ l₂) k = alookup l₂ k := by
  induction l₁ with
  | nil => simp
  | cons hd tl ih =>
    obtain ⟨k', v'⟩ := hd
    by_cases hk : k' = k
    · simp only [alookup, if_pos hk] at h
      cases h
    · simp only [alookup, if_neg hk] at h ⊢
      exact ih h

theorem alookup_none_iff {κ α : Type} [DecidableEq κ] (l : List (κ × α)) (k : κ) :
    alookup l k = none ↔ k ∉ l.map Prod.fst := by
  induction l with
  | nil => simp [alookup]
  | cons hd tl ih =>
    obtain ⟨k', v'⟩ := hd
    by_cases hk : k' = k
    · subst hk
      simp [alookup]
    · simp [alookup, if_neg hk, ih, Ne.symm hk]

theorem alookup_mem {κ α : Type} [DecidableEq κ] {l : List (κ × α)} {k : κ} {v : α}
    (h : alookup l k = some v) : (k, v) ∈ l := by
  induction l with
  | nil => simp [alookup] at h
  | cons hd tl ih =>
    obtain ⟨k', v'⟩ := hd
    simp only [alookup] at h
    by_cases hk : k' = k
    · rw [if_pos hk] at h
      injection h with hv
      subst hk
      subst hv
      exact List.mem_cons_self _ _
    · rw [if_neg hk] at h
      exact List.mem_cons_of_mem _ (ih h)

theorem mem_alookup {κ α : Type} [DecidableEq κ] {l : List (κ × α)} {k : κ} {v : α}
    (hnd : (l.map Prod.fst).Nodup) (h : (k, v) ∈ l) : alookup l k = some v := by
  induction l with
  | nil => cases h
  | cons hd tl ih =>
    obtain ⟨k', v'⟩ := hd
    simp only [List.map_cons, List.nodup_cons] at hnd
    rcases List.mem_cons.mp h with h0 | h0
    · injection h0 with h1 h2
      subst h1
      subst h2
      simp [alookup]
    · have hk : k' ≠ k := by
        intro hkk
        subst hkk
        exact hnd.1 (List.mem_map.mpr ⟨(k', v), h0, rfl⟩)
      simp only [alookup, if_neg hk]
      exact ih hnd.2 h0

/-! ### Node-list access lemmas for the automaton -/

theorem length_updateNode (nodes : List ACNode) (i : Nat) (f : ACNode → ACNode) :
    (updateNode nodes i f).length = nodes.length := by
  simp [updateNode]

theorem nd_updateNode_self {nodes : List ACNode} {i : Nat} (f : ACNode → ACNode)
    (h : i < nodes.length) : nd (updateNode nodes i f) i = f (nd nodes i) := by
  simp [updateNode, nd, List.getElem?_set_self', h]

theorem nd_updateNode_ne {nodes : List ACNode} {i j : Nat} (f : ACNode → ACNode)
    (h : i ≠ j) : nd (updateNode nodes i f) j = nd nodes j := by
  simp [updateNode, nd, List.getElem?_set_ne h]

theorem nd_append_lt {nodes : List ACNode} (l : List ACNode) {i : Nat}
    (h : i < nodes.length) : nd (nodes ++ l) i = nd nodes i := by
  simp [nd, List.getElem?_append, h]

theorem nd_append_self (nodes : List ACNode) (v : ACNode) :
    nd (nodes ++ [v]) nodes.length = v := by
  simp [nd]

theorem nd_of_ge {nodes : List ACNode} {i : Nat} (h : nodes.length ≤ i) :
    nd nodes i = blankNode := by
  simp [nd, List.getElem?_eq_none h]

/-! ### The goto trie: reachability and well-formedness -/

theorem follow_append (ns : List ACNode) (cur : Nat) (s t : List Char) :
    follow ns cur (s ++ t) = (follow ns cur s).bind (fun m => follow ns m t) := by
  induction s generalizing cur with
  | nil => simp [follow]
  | cons c rest ih =>
    simp only [List.cons_append, follow]
    cases h : alookup (nd ns cur).next c with
    | none => simp
    | some n => simpa using ih n

theorem follow_single (ns : List ACNode) (cur : Nat) (c : Char) :
    follow ns cur [c] = edgeTo ns cur c := by
  cases h : alookup (nd ns cur).next c <;> simp [follow, edgeTo, h]

theorem follow_snoc (ns : List ACNode) (cur : Nat) (s : List Char) (c : Char) :
    follow ns cur (s ++ [c]) = (follow ns cur s).bind (fun m => edgeTo ns m c) := by
  rw [follow_append]
  cases follow ns cur s <;> simp [follow_single]

theorem follow_le {ns : List ACNode} (wf : TrieWF ns) {cur n : Nat} {s : List Char}
    (h : follow ns cur s = some n) : n < ns.length ∨ (s = [] ∧ n = cur) := by
  induction s generalizing cur with
  | nil =>
    simp only [follow, Option.some.injEq] at h
    exact Or.inr ⟨rfl, h.symm⟩
  | cons c rest ih =>
    simp only [follow] at h
    cases he : alookup (nd ns cur).next c with
    | none => rw [he] at h; cases h
    | some m =>
      rw [he] at h
      rcases ih h with h1 | ⟨rfl, rfl⟩
      · left; exact h1
      · left; exact (wf.edge_lt cur c n he).1

theorem follow_gain {ns : List ACNode} (wf : TrieWF ns) {cur n : Nat} {s : List Char}
    (h : follow ns cur s = some n) : cur + s.length ≤ n := by
  induction s generalizing cur with
  | nil =>
    simp only [follow, Option.some.injEq] at h
    simp [h]
  | cons c rest ih =>
    simp only [follow] at h
    cases he : alookup (nd ns cur).next c with
    | none => rw [he] at h; cases h
    | some m =>
      rw [he] at h
      have hlt := (wf.edge_lt cur c m he).2
      have := ih h
      simp only [List.length_cons]
      omega

theorem follow_zero_len {ns : List ACNode} (wf : TrieWF ns) {n : Nat} {s : List Char}
    (h : follow ns 0 s = some n) : s.length ≤ n ∧ (n = 0 → s = []) := by
  have hg := follow_gain wf h
  constructor
  · omega
  · intro hn
    subst hn
    cases s with
    | nil => rfl
    | cons c rest => simp at hg

theorem follow_inj {ns : List ACNode} (wf : TrieWF ns) :
    ∀ n, ∀ {s t : List Char}, follow ns 0 s = some n → follow ns 0 t = some n → s = t := by
  intro n
  induction n using Nat.strong_induction_on with
  | _ n ih =>
    intro s t hs ht
    rcases List.eq_nil_or_concat s with rfl | ⟨s', c, rfl⟩
    · simp only [follow, Option.some.injEq] at hs
      subst hs
      exact ((follow_zero_len wf ht).2 rfl).symm
    · rcases List.eq_nil_or_concat t with rfl | ⟨t', c', rfl⟩
      · simp only [follow, Option.some.injEq] at ht
        subst ht
        have := (follow_zero_len wf hs).2 rfl
        simp at this
      · rw [List.concat_eq_append] at hs ht ⊢
        rw [follow_snoc] at hs ht
        cases hms : follow ns 0 s' with
        | none => rw [hms] at hs; cases hs
        | some m =>
          cases hmt : follow ns 0 t' with
          | none => rw [hmt] at ht; cases ht
          | some m' =>
            rw [hms] at hs
            rw [hmt] at ht
            dsimp only [Option.bind] at hs ht
            obtain ⟨rfl, rfl⟩ := wf.parent_uniq m c m' c' n hs ht
            have hmn : m < n := (wf.edge_lt m c n hs).2
            rw [ih m hmn hms hmt, List.concat_eq_append]

/-! ### The single-edge extension step of the trie build -/

theorem length_extends1 (ns : List ACNode) (cur : Nat) (c : Char) :
    (extends1 ns cur c).length = ns.length + 1 := by
  simp [extends1, length_updateNode]

theorem nd_extends1_cur {ns : List ACNode} {cur : Nat} (c : Char) (h : cur < ns.length) :
    nd (extends1 ns cur c) cur =
      { nd ns cur with next := (nd ns cur).next ++ [(c, ns.length)] } := by
  unfold extends1
  rw [nd_append_lt _ (by rw [length_updateNode]; exact h), nd_updateNode_self _ h]

theorem nd_extends1_other {ns : List ACNode} {cur m : Nat} (c : Char) (hm : m ≠ cur)
    (hlt : m < ns.length) : nd (extends1 ns cur c) m = nd ns m := by
  unfold extends1
  rw [nd_append_lt _ (by rw [length_updateNode]; exact hlt), nd_updateNode_ne _ (Ne.symm hm)]

theorem nd_extends1_new (ns : List ACNode) (cur : Nat) (c : Char) :
    nd (extends1 ns cur c) ns.length = blankNode := by
  unfold extends1 nd
  rw [List.getElem?_append_right (by rw [length_updateNode])]
  rw [length_updateNode]
  simp

theorem nd_extends1_ge {ns : List ACNode} {m : Nat} (cur : Nat) (c : Char)
    (hm : ns.length + 1 ≤ m) : nd (extends1 ns cur c) m = blankNode := by
  apply nd_of_ge
  rw [length_extends1]
  exact hm

theorem outputs_extends1 {ns : List ACNode} {cur : Nat} (c : Char) (hcur : cur < ns.length) :
    ∀ m, (nd (extends1 ns cur c) m).outputs = (nd ns m).outputs := by
  intro m
  by_cases hm : m = cur
  · subst hm
    rw [nd_extends1_cur c hcur]
  · by_cases hlt : m < ns.length
    · rw [nd_extends1_other c hm hlt]
    · have hge : ns.length ≤ m := Nat.le_of_not_lt hlt
      rw [nd_of_ge hge]
      rcases Nat.eq_or_lt_of_le hge with heq | hlt2
      · rw [← heq, nd_extends1_new]
      · rw [nd_extends1_ge cur c hlt2]

theorem edgeTo_extends1 {ns : List ACNode} {cur : Nat} {c : Char} (hcur : cur < ns.length)
    (hnone : edgeTo ns cur c = none) (m : Nat) (c' : Char) :
    edgeTo (extends1 ns cur c) m c' =
      if m = cur ∧ c' = c then some ns.length else edgeTo ns m c' := by
  by_cases hm : m = cur
  · subst hm
    rw [edgeTo, nd_extends1_cur c hcur]
    by_cases hc : c' = c
    · subst hc
      rw [if_pos ⟨rfl, rfl⟩]
      rw [alookup_append_none _ hnone]
      simp [alookup]
    · rw [if_neg (fun h => hc h.2)]
      cases ha : alookup (nd ns m).next c' with
      | some v =>
        rw [alookup_append_some _ ha, edgeTo, ha]
      | none =>
        rw [alookup_append_none _ ha, edgeTo, ha]
        simp only [alookup]
        rw [if_neg (fun h : c = c' => hc h.symm)]
  · rw [if_neg (fun h => hm h.1)]
    by_cases hlt : m < ns.length
    · rw [edgeTo, edgeTo, nd_extends1_other c hm hlt]
    · have hge : ns.length ≤ m := Nat.le_of_not_lt hlt
      rw [edgeTo, edgeTo, nd_of_ge hge]
      rcases Nat.eq_or_lt_of_le hge with heq | hlt2
      · rw [← heq, nd_extends1_new]
      · rw [nd_extends1_ge cur c hlt2]

theorem follow_mono_of_edge {ns ns' : List ACNode}
    (hmono : ∀ m c n, edgeTo ns m c = some n → edgeTo ns' m c = some n) :
    ∀ t cur n, follow ns cur t = some n → follow ns' cur t = some n := by
  intro t
  induction t with
  | nil => intro cur n h; exact h
  | cons c rest ih =>
    intro cur n h
    simp only [follow] at h ⊢
    cases he : alookup (nd ns cur).next c with
    | none => rw [he] at h; cases h
    | some m =>
      rw [he] at h
      have := hmono cur c m he
      rw [edgeTo] at this
      rw [this]
      exact ih m n h

theorem edge_mono_extends1 {ns : List ACNode} {cur : Nat} {c : Char} (hcur : cur < ns.length)
    (hnone : edgeTo ns cur c = none) :
    ∀ m c' n, edgeTo ns m c' = some n → edgeTo (extends1 ns cur c) m c' = some n := by
  intro m c' n h
  rw [edgeTo_extends1 hcur hnone]
  by_cases hmc : m = cur ∧ c' = c
  · obtain ⟨rfl, rfl⟩ := hmc
    rw [hnone] at h
    cases h
  · rw [if_neg hmc]
    exact h

theorem edgeTo_extends1_self {ns : List ACNode} {cur : Nat} {c : Char} (hcur : cur < ns.length)
    (hnone : edgeTo ns cur c = none) :
    edgeTo (extends1 ns cur c) cur c = some ns.length := by
  rw [edgeTo_extends1 hcur hnone, if_pos ⟨rfl, rfl⟩]

theorem trieWF_extends1 {ns : List ACNode} {cur : Nat} {c : Char} (wf : TrieWF ns)
    (hcur : cur < ns.length) (hnone : edgeTo ns cur c = none) :
    TrieWF (extends1 ns cur c) := by
  refine ⟨?_, ?_, ?_, ?_, ?_⟩
  · have : 0 < (extends1 ns cur c).length := by
      rw [length_extends1]; omega
    exact List.ne_nil_of_length_pos this
  · intro m
    by_cases hm : m = cur
    · subst hm
      rw [nd_extends1_cur c hcur]
      simp only [List.map_append, List.map_cons, List.map_nil]
      rw [List.nodup_append]
      refine ⟨wf.keys_nodup m, List.nodup_singleton c, ?_⟩
      intro a ha hb
      simp only [List.mem_singleton] at hb
      subst hb
      exact ((alookup_none_iff _ _).mp hnone) ha
    · by_cases hlt : m < ns.length
      · rw [nd_extends1_other c hm hlt]
        exact wf.keys_nodup m
      · have hge : ns.length ≤ m := Nat.le_of_not_lt hlt
        rcases Nat.eq_or_lt_of_le hge with heq | hlt2
        · rw [← heq, nd_extends1_new]; simp [blankNode]
        · rw [nd_extends1_ge cur c hlt2]; simp [blankNode]
  · intro m c' n h
    rw [edgeTo_extends1 hcur hnone] at h
    by_cases hmc : m = cur ∧ c' = c
    · rw [if_pos hmc] at h
      injection h with h
      subst h
      rw [length_extends1]
      exact ⟨by omega, by omega⟩
    · rw [if_neg hmc] at h
      have := wf.edge_lt m c' n h
      rw [length_extends1]
      exact ⟨by omega, this.2⟩
  · intro m c' m' c'' n h h'
    rw [edgeTo_extends1 hcur hnone] at h h'
    by_cases hmc : m = cur ∧ c' = c
    · rw [if_pos hmc] at h
      injection h with h
      subst h
      by_cases hmc' : m' = cur ∧ c'' = c
      · exact ⟨hmc.1.trans hmc'.1.symm, hmc.2.trans hmc'.2.symm⟩
      · rw [if_neg hmc'] at h'
        have := (wf.edge_lt m' c'' _ h').1
        omega
    · rw [if_neg hmc] at h
      by_cases hmc' : m' = cur ∧ c'' = c
      · rw [if_pos hmc'] at h'
        injection h' with h'
        subst h'
        have := (wf.edge_lt m c' _ h).1
        omega
      · rw [if_neg hmc'] at h'
        exact wf.parent_uniq m c' m' c'' n h h'
  · intro n hpos hlt
    rw [length_extends1] at hlt
    by_cases hn : n = ns.length
    · subst hn
      exact ⟨cur, c, edgeTo_extends1_self hcur hnone⟩
    · have hlt' : n < ns.length := by omega
      obtain ⟨m, c', hm⟩ := wf.has_parent n hpos hlt'
      exact ⟨m, c', edge_mono_extends1 hcur hnone m c' n hm⟩

theorem follow_extends1_rev {ns : List ACNode} {cur : Nat} {c : Char} {s : List Char}
    (wf : TrieWF ns) (hcur : cur < ns.length) (hnone : edgeTo ns cur c = none)
    (hs : follow ns 0 s = some cur) :
    ∀ t n, follow (extends1 ns cur c) 0 t = some n →
      follow ns 0 t = some n ∨ (t = s ++ [c] ∧ n = ns.length) := by
  intro t
  induction t using List.reverseRecOn with
  | nil =>
    intro n h
    simp only [follow, Option.some.injEq] at h
    subst h
    exact Or.inl rfl
  | append_singleton u c' ih =>
    intro n h
    rw [follow_snoc] at h
    cases hm : follow (extends1 ns cur c) 0 u with
    | none => rw [hm] at h; cases h
    | some m =>
      rw [hm] at h
      dsimp only [Option.bind] at h
      rcases ih m hm with hold | ⟨rfl, rfl⟩
      · rw [edgeTo_extends1 hcur hnone] at h
        by_cases hmc : m = cur ∧ c' = c
        · rw [if_pos hmc] at h
          injection h with h
          obtain ⟨rfl, rfl⟩ := hmc
          right
          refine ⟨?_, h.symm⟩
          rw [follow_inj wf m hold hs]
        · rw [if_neg hmc] at h
          left
          rw [follow_snoc, hold]
          exact h
      · rw [edgeTo, nd_extends1_new] at h
        simp [blankNode, alookup] at h

/-! ### The `insertPat` specification -/

theorem insertPat_spec :
    ∀ (rest : List Char) (ns : List ACNode) (cur : Nat) (s : List Char),
    TrieWF ns → follow ns 0 s = some cur →
    TrieWF (insertPat ns cur rest).1 ∧
    ns.length ≤ (insertPat ns cur rest).1.length ∧
    follow (insertPat ns cur rest).1 0 (s ++ rest) = some (insertPat ns cur rest).2 ∧
    (∀ n, n < ns.length → (nd (insertPat ns cur rest).1 n).outputs = (nd ns n).outputs) ∧
    (∀ n, ns.length ≤ n → (nd (insertPat ns cur rest).1 n).outputs = []) ∧
    (∀ t n, follow ns 0 t = some n → follow (insertPat ns cur rest).1 0 t = some n) ∧
    (∀ t n, follow (insertPat ns cur rest).1 0 t = some n →
       follow ns 0 t = some n ∨ ∃ k, t = s ++ rest.take (k + 1)) := by
  intro rest
  induction rest with
  | nil =>
    intro ns cur s wf hs
    refine ⟨wf, Nat.le_refl _, ?_, fun n _ => rfl, ?_, fun t n h => h, fun t n h => Or.inl h⟩
    · simpa [insertPat] using hs
    · intro n hge
      rw [insertPat]
      rw [nd_of_ge hge]
      rfl
  | cons c rest ih =>
    intro ns cur s wf hs
    cases he : alookup (nd ns cur).next c with
    | some nxt =>
      have hstep : insertPat ns cur (c :: rest) = insertPat ns nxt rest := by
        simp [insertPat, he]
      have hs' : follow ns 0 (s ++ [c]) = some nxt := by
        rw [follow_snoc, hs]
        dsimp only [Option.bind]
        rw [edgeTo, he]
      obtain ⟨h1, h2, h3, h4, h5, h6, h7⟩ := ih ns nxt (s ++ [c]) wf hs'
      rw [hstep]
      refine ⟨h1, h2, ?_, h4, h5, h6, ?_⟩
      · rw [show s ++ c :: rest = (s ++ [c]) ++ rest by simp]
        exact h3
      · intro t n h
        rcases h7 t n h with hold | ⟨k, hk⟩
        · exact Or.inl hold
        · right
          exact ⟨k + 1, by simpa using hk⟩
    | none =>
      have hcur : cur < ns.length := by
        rcases follow_le wf hs with h | ⟨rfl, rfl⟩
        · exact h
        · have : 0 < ns.length := List.length_pos.mpr wf.nonnil
          exact this
      have hnone : edgeTo ns cur c = none := by rw [edgeTo, he]
      have hstep : insertPat ns cur (c :: rest) =
          insertPat (extends1 ns cur c) ns.length rest := by
        simp [insertPat, he, extends1, updateNode]
      have wf' : TrieWF (extends1 ns cur c) := trieWF_extends1 wf hcur hnone
      have hmono := follow_mono_of_edge (edge_mono_extends1 hcur hnone)
      have hs' : follow (extends1 ns cur c) 0 (s ++ [c]) = some ns.length := by
        rw [follow_snoc, hmono s 0 cur hs]
        dsimp only [Option.bind]
        exact edgeTo_extends1_self hcur hnone
      obtain ⟨h1, h2, h3, h4, h5, h6, h7⟩ := ih (extends1 ns cur c) ns.length (s ++ [c]) wf' hs'
      rw [hstep]
      have hlen1 : ns.length ≤ (extends1 ns cur c).length := by
        rw [length_extends1]; omega
      refine ⟨h1, Nat.le_trans hlen1 h2, ?_, ?_, ?_, ?_, ?_⟩
      · rw [show s ++ c :: rest = (s ++ [c]) ++ rest by simp]
        exact h3
      · intro n hn
        rw [h4 n (by rw [length_extends1]; omega)]
        exact outputs_extends1 c hcur n
      · intro n hge
        rcases Nat.eq_or_lt_of_le hge with heq | hlt
        · rw [h4 n (by rw [length_extends1]; omega), ← heq, nd_extends1_new]
          rfl
        · exact h5 n (by rw [length_extends1]; omega)
      · intro t n h
        exact h6 t n (hmono t 0 n h)
      · intro t n h
        rcases h7 t n h with hmid | ⟨k, hk⟩
        · rcases follow_extends1_rev wf hcur hnone hs t n hmid with hold | ⟨rfl, rfl⟩
          · exact Or.inl hold
          · right
            exact ⟨0, by simp⟩
        · right
          refine ⟨k + 1, ?_⟩
          rw [hk]
          simp

/-! ### From `insertPat` to `addPattern` and the goto-phase invariant -/

theorem follow_congr_next {ns ns' : List ACNode}
    (h : ∀ m, (nd ns' m).next = (nd ns m).next) :
    ∀ t cur, follow ns' cur t = follow ns cur t := by
  intro t
  induction t with
  | nil => intro cur; rfl
  | cons c rest ih =>
    intro cur
    simp only [follow, h cur]
    cases alookup (nd ns cur).next c with
    | none => rfl
    | some m => exact ih m

theorem edgeTo_congr_next {ns ns' : List ACNode}
    (h : ∀ m, (nd ns' m).next = (nd ns m).next) (m : Nat) (c : Char) :
    edgeTo ns' m c = edgeTo ns m c := by
  rw [edgeTo, edgeTo, h m]

theorem trieWF_congr_next {ns ns' : List ACNode}
    (h : ∀ m, (nd ns' m).next = (nd ns m).next) (hlen : ns'.length = ns.length)
    (wf : TrieWF ns) : TrieWF ns' := by
  refine ⟨?_, ?_, ?_, ?_, ?_⟩
  · have : 0 < ns.length := List.length_pos.mpr wf.nonnil
    exact List.ne_nil_of_length_pos (by omega)
  · intro m
    rw [h m]
    exact wf.keys_nodup m
  · intro m c n he
    rw [edgeTo_congr_next h] at he
    rw [hlen]
    exact wf.edge_lt m c n he
  · intro m c m' c' n he he'
    rw [edgeTo_congr_next h] at he he'
    exact wf.parent_uniq m c m' c' n he he'
  · intro n hpos hlt
    rw [hlen] at hlt
    obtain ⟨m, c, hm⟩ := wf.has_parent n hpos hlt
    exact ⟨m, c, by rw [edgeTo_congr_next h]; exact hm⟩

theorem prefix_iff_take {t p : List Char} :
    t <+: p ↔ t = [] ∨ ∃ k, t = p.take (k + 1) := by
  constructor
  · intro hpre
    cases t with
    | nil => exact Or.inl rfl
    | cons c rest =>
      right
      refine ⟨rest.length, ?_⟩
      have := List.prefix_iff_eq_take.mp hpre
      simpa using this
  · rintro (rfl | ⟨k, rfl⟩)
    · exact List.nil_prefix
    · exact List.take_prefix _ _

theorem addPattern_spec {ns : List ACNode} {pats : List (List Char)} {pat : List Char}
    (inv : GotoInv ns pats) (hpat : pat ≠ []) :
    GotoInv (addPattern ns pat) (pats ++ [pat]) := by
  have h0 : follow ns 0 [] = some 0 := rfl
  obtain ⟨wf', hlen, hfollow0, hout_lt, hout_ge, hmono, hrev0⟩ :=
    insertPat_spec pat ns 0 [] inv.wf h0
  have hfollow : follow (insertPat ns 0 pat).1 0 pat = some (insertPat ns 0 pat).2 := by
    simpa using hfollow0
  have hrev : ∀ t n, follow (insertPat ns 0 pat).1 0 t = some n →
      follow ns 0 t = some n ∨ ∃ k, t = pat.take (k + 1) := by
    intro t n h
    rcases hrev0 t n h with h | ⟨k, hk⟩
    · exact Or.inl h
    · exact Or.inr ⟨k, by simpa using hk⟩
  clear hfollow0 hrev0
  set r := insertPat ns 0 pat with hr
  have hr2lt : r.2 < r.1.length := by
    rcases follow_le wf' hfollow with h | ⟨hnil, _⟩
    · exact h
    · exact absurd hnil hpat
  have hnext : ∀ m, (nd (addPattern ns pat) m).next = (nd r.1 m).next := by
    intro m
    unfold addPattern
    rw [← hr]
    by_cases hm : m = r.2
    · subst hm
      rw [nd_updateNode_self _ hr2lt]
    · rw [nd_updateNode_ne _ (Ne.symm hm)]
  have hlen2 : (addPattern ns pat).length = r.1.length := by
    unfold addPattern
    rw [← hr]
    exact length_updateNode _ _ _
  have hfoll_eq := follow_congr_next hnext
  have houts : ∀ n, (nd (addPattern ns pat) n).outputs =
      if n = r.2 then (nd r.1 n).outputs ++ [pat] else (nd r.1 n).outputs := by
    intro n
    unfold addPattern
    rw [← hr]
    by_cases hn : n = r.2
    · subst hn
      rw [nd_updateNode_self _ hr2lt, if_pos rfl]
    · rw [nd_updateNode_ne _ (Ne.symm hn), if_neg hn]
  have hsmem_ns : ∀ p ∈ pats, ∃ n, follow ns 0 p = some n := by
    intro p hp
    exact (inv.strings_iff p).mpr (Or.inr ⟨p, hp, List.prefix_refl p⟩)
  refine ⟨trieWF_congr_next hnext hlen2 wf', ?_, ?_, ?_⟩
  · intro t
    constructor
    · rintro ⟨n, hn⟩
      rw [hfoll_eq] at hn
      rcases hrev t n hn with hold | ⟨k, rfl⟩
      · rcases (inv.strings_iff t).mp ⟨n, hold⟩ with rfl | ⟨p, hp, hpre⟩
        · exact Or.inl rfl
        · exact Or.inr ⟨p, List.mem_append_left _ hp, hpre⟩
      · exact Or.inr ⟨pat, List.mem_append_right _ (List.mem_singleton_self pat),
          List.take_prefix _ _⟩
    · rintro (rfl | ⟨p, hp, hpre⟩)
      · exact ⟨0, by rw [hfoll_eq]; exact hmono [] 0 rfl⟩
      · rcases List.mem_append.mp hp with hp | hp
        · obtain ⟨n, hn⟩ := hsmem_ns p hp
          have : follow ns 0 t ≠ none := by
            rcases hpre with ⟨u, rfl⟩
            rw [follow_append] at hn
            cases hf : follow ns 0 t with
            | none => rw [hf] at hn; cases hn
            | some m => simp [hf]
          cases hf : follow ns 0 t with
          | none => exact absurd hf this
          | some m => exact ⟨m, by rw [hfoll_eq]; exact hmono t m hf⟩
        · rw [List.mem_singleton] at hp
          subst hp
          rcases prefix_iff_take.mp hpre with rfl | ⟨k, rfl⟩
          · exact ⟨0, by rw [hfoll_eq]; exact hmono [] 0 rfl⟩
          · have hne : follow r.1 0 p ≠ none := by rw [hfollow]; simp
            have hsplit : p = p.take (k + 1) ++ p.drop (k + 1) := by
              rw [List.take_append_drop]
            cases hf : follow r.1 0 (p.take (k + 1)) with
            | none =>
              exfalso
              apply hne
              rw [hsplit, follow_append, hf]
              rfl
            | some m => exact ⟨m, by rw [hfoll_eq]; exact hf⟩
  · intro n p
    rw [houts n, hfoll_eq]
    by_cases hn : n = r.2
    · subst hn
      rw [if_pos rfl]
      constructor
      · intro hmem
        rcases List.mem_append.mp hmem with hmem | hmem
        · have hlt : r.2 < ns.length ∨ ns.length ≤ r.2 := Nat.lt_or_ge _ _
          rcases hlt with hlt | hge
          · rw [hout_lt r.2 hlt] at hmem
            obtain ⟨hp, hf⟩ := (inv.outputs_iff r.2 p).mp hmem
            exact ⟨List.mem_append_left _ hp, hmono p r.2 hf⟩
          · rw [hout_ge r.2 hge] at hmem
            cases hmem
        · rw [List.mem_singleton] at hmem
          subst hmem
          exact ⟨List.mem_append_right _ (List.mem_singleton_self p), hfollow⟩
      · rintro ⟨hp, hf⟩
        rcases List.mem_append.mp hp with hp | hp
        · obtain ⟨n', hn'⟩ := hsmem_ns p hp
          have hn'2 : follow r.1 0 p = some n' := hmono p n' hn'
          rw [hf] at hn'2
          injection hn'2 with hn'2
          subst hn'2
          have hlt : r.2 < ns.length := by
            rcases follow_le inv.wf hn' with h | ⟨rfl, hzero⟩
            · exact h
            · exact absurd rfl (inv.pats_nonnil [] hp)
          apply List.mem_append_left
          rw [hout_lt r.2 hlt]
          exact (inv.outputs_iff r.2 p).mpr ⟨hp, hn'⟩
        · rw [List.mem_singleton] at hp
          subst hp
          exact List.mem_append_right _ (List.mem_singleton_self p)
    · rw [if_neg hn]
      constructor
      · intro hmem
        have hlt : n < ns.length := by
          by_contra hge
          rw [hout_ge n (Nat.le_of_not_lt hge)] at hmem
          cases hmem
        rw [hout_lt n hlt] at hmem
        obtain ⟨hp, hf⟩ := (inv.outputs_iff n p).mp hmem
        exact ⟨List.mem_append_left _ hp, hmono p n hf⟩
      · rintro ⟨hp, hf⟩
        rcases List.mem_append.mp hp with hp | hp
        · obtain ⟨n', hn'⟩ := hsmem_ns p hp
          have hn'2 : follow r.1 0 p = some n' := hmono p n' hn'
          rw [hf] at hn'2
          injection hn'2 with hn'2
          subst hn'2
          have hlt : n < ns.length := by
            rcases follow_le inv.wf hn' with h | ⟨rfl, hzero⟩
            · exact h
            · exact absurd rfl (inv.pats_nonnil [] hp)
          rw [hout_lt n hlt]
          exact (inv.outputs_iff n p).mpr ⟨hp, hn'⟩
        · rw [List.mem_singleton] at hp
          subst hp
          rw [hfollow] at hf
          injection hf with hf
          exact absurd hf.symm hn
  · intro p hp
    rcases List.mem_append.mp hp with hp | hp
    · exact inv.pats_nonnil p hp
    · rw [List.mem_singleton] at hp
      subst hp
      exact hpat

theorem patternsOf_append (done : List RefItem) (it : RefItem) :
    patternsOf (done ++ [it]) =
      patternsOf done ++ (if normText it.text = [] then [] else [normText it.text]) := by
  unfold patternsOf
  rw [List.map_append, List.filter_append]
  congr 1
  by_cases h : normText it.text = [] <;> simp [h]

theorem firstTaskFor_append (done : List RefItem) (it : RefItem) (p : List Char) :
    firstTaskFor (done ++ [it]) p =
      match firstTaskFor done p with
      | some t => some t
      | none => if normText it.text = p ∧ p ≠ [] then some it.task else none := by
  induction done with
  | nil =>
    by_cases h : normText it.text = p ∧ p ≠ [] <;> simp [firstTaskFor, h]
  | cons hd tl ih =>
    simp only [List.cons_append, firstTaskFor]
    by_cases h : normText hd.text = p ∧ p ≠ [] <;> simp [h, ih]

theorem gotoInv_base : GotoInv [blankNode] [] := by
  have hnd : ∀ m, nd [blankNode] m = blankNode := by
    intro m
    cases m with
    | zero => rfl
    | succ k => exact nd_of_ge (by simp)
  have hedge : ∀ m c, edgeTo [blankNode] m c = none := by
    intro m c
    rw [edgeTo, hnd m]
    rfl
  refine ⟨⟨by simp, ?_, ?_, ?_, ?_⟩, ?_, ?_, ?_⟩
  · intro m
    rw [hnd m]
    exact List.nodup_nil
  · intro m c n h
    rw [hedge m c] at h
    cases h
  · intro m c m' c' n h h'
    rw [hedge m c] at h
    cases h
  · intro n hpos hlt
    simp only [List.length_singleton] at hlt
    omega
  · intro t
    constructor
    · rintro ⟨n, hn⟩
      cases t with
      | nil => exact Or.inl rfl
      | cons c rest =>
        simp only [follow] at hn
        have := hedge 0 c
        rw [edgeTo] at this
        rw [this] at hn
        cases hn
    · rintro (rfl | ⟨p, hp, _⟩)
      · exact ⟨0, rfl⟩
      · cases hp
  · intro n p
    rw [hnd n]
    simp [blankNode]
  · intro p hp
    cases hp

theorem buildGoto_fold :
    ∀ (todo : List RefItem) (acc : List ACNode × List (List Char × String)) (done : List RefItem),
    GotoInv acc.1 (patternsOf done) →
    (∀ p, alookup acc.2 p = firstTaskFor done p) →
    GotoInv (todo.foldl buildGotoStep acc).1 (patternsOf (done ++ todo)) ∧
    (∀ p, alookup (todo.foldl buildGotoStep acc).2 p = firstTaskFor (done ++ todo) p) := by
  intro todo
  induction todo with
  | nil =>
    intro acc done h1 h2
    simpa using ⟨h1, h2⟩
  | cons it rest ih =>
    intro acc done h1 h2
    have hstep : (it :: rest).foldl buildGotoStep acc =
        rest.foldl buildGotoStep (buildGotoStep acc it) := rfl
    rw [hstep, show done ++ it :: rest = (done ++ [it]) ++ rest by simp]
    refine ih (buildGotoStep acc it) (done ++ [it]) ?_ ?_
    · unfold buildGotoStep
      by_cases hp : normText it.text = []
      · rw [if_pos hp, patternsOf_append, if_pos hp, List.append_nil]
        exact h1
      · rw [if_neg hp]
        dsimp only
        rw [patternsOf_append, if_neg hp]
        exact addPattern_spec h1 hp
    · unfold buildGotoStep
      by_cases hp : normText it.text = []
      · rw [if_pos hp]
        intro p
        rw [h2 p, firstTaskFor_append]
        cases hft : firstTaskFor done p with
        | some t => rfl
        | none =>
          rw [if_neg]
          rintro ⟨hnp, hpne⟩
          exact hpne (hnp.symm.trans hp)
      · rw [if_neg hp]
        dsimp only
        intro p
        by_cases hsome : (alookup acc.2 (normText it.text)).isSome = true
        · rw [if_pos hsome, h2 p, firstTaskFor_append]
          cases hft : firstTaskFor done p with
          | some t => rfl
          | none =>
            rw [if_neg]
            rintro ⟨hnp, hpne⟩
            rw [h2 (normText it.text), hnp, hft] at hsome
            cases hsome
        · rw [if_neg hsome]
          have ha0 : alookup acc.2 (normText it.text) = none := by
            cases h : alookup acc.2 (normText it.text) with
            | none => rfl
            | some v => rw [h] at hsome; simp at hsome
          rw [firstTaskFor_append]
          cases ha : alookup acc.2 p with
          | some v =>
            rw [alookup_append_some _ ha]
            rw [h2 p] at ha
            rw [ha]
          | none =>
            rw [alookup_append_none _ ha]
            rw [h2 p] at ha
            rw [ha]
            simp only [alookup]
            by_cases hnp : normText it.text = p
            · rw [if_pos hnp, if_pos ⟨hnp, fun hpe => hp (hnp.trans hpe)⟩]
            · rw [if_neg hnp, if_neg (fun h => hnp h.1)]

theorem buildGoto_spec (items : List RefItem) :
    GotoInv (buildGoto items).1 (patternsOf items) ∧
    (∀ p, alookup (buildGoto items).2 p = firstTaskFor items p) := by
  have h := buildGoto_fold items ([blankNode], []) [] gotoInv_base (fun p => rfl)
  simpa [buildGoto] using h

/-! ### Suffixes and the fail-string function -/

theorem suffix_iff_drop {t s : List Char} :
    t <:+ s ↔ ∃ k, k + t.length = s.length ∧ s.drop k = t := by
  constructor
  · rintro ⟨u, rfl⟩
    exact ⟨u.length, by simp, by simp⟩
  · rintro ⟨k, hk, rfl⟩
    exact List.drop_suffix k s

theorem suffix_comparable {t₁ t₂ s : List Char} (h₁ : t₁ <:+ s) (h₂ : t₂ <:+ s)
    (hlen : t₁.length ≤ t₂.length) : t₁ <:+ t₂ := by
  obtain ⟨k₁, hk₁, rfl⟩ := suffix_iff_drop.mp h₁
  obtain ⟨k₂, hk₂, rfl⟩ := suffix_iff_drop.mp h₂
  have hk : k₂ ≤ k₁ := by omega
  have : (s.drop k₂).drop (k₁ - k₂) = s.drop k₁ := by
    rw [List.drop_drop]
    congr 1
    omega
  rw [← this]
  exact List.drop_suffix _ _

theorem SMem_of_append {tns : List ACNode} {t u : List Char} (h : SMem tns (t ++ u)) :
    SMem tns t := by
  obtain ⟨n, hn⟩ := h
  rw [follow_append] at hn
  cases hf : follow tns 0 t with
  | none => rw [hf] at hn; cases hn
  | some m => exact ⟨m, hf⟩

theorem find?_map_range {α : Type} (p : α → Bool) (f : Nat → α) :
    ∀ (n : Nat) (x : α), ((List.range n).map f).find? p = some x ↔
      ∃ k, k < n ∧ x = f k ∧ p (f k) = true ∧ ∀ j, j < k → p (f j) = false := by
  intro n
  induction n with
  | zero => simp
  | succ n ih =>
    intro x
    rw [List.range_succ, List.map_append, List.find?_append]
    constructor
    · intro h
      cases hfst : ((List.range n).map f).find? p with
      | some y =>
        rw [hfst] at h
        dsimp only [Option.or] at h
        injection h with h
        subst h
        obtain ⟨k, hk, hx, hp, hmin⟩ := (ih y).mp hfst
        exact ⟨k, by omega, hx, hp, hmin⟩
      | none =>
        rw [hfst] at h
        dsimp only [Option.or] at h
        simp only [List.map_cons, List.map_nil, List.find?] at h
        cases hpn : p (f n) with
        | false => rw [hpn] at h; cases h
        | true =>
          rw [hpn] at h
          injection h with h
          refine ⟨n, by omega, h.symm, hpn, ?_⟩
          intro j hj
          have hmem : f j ∈ (List.range n).map f :=
            List.mem_map.mpr ⟨j, List.mem_range.mpr hj, rfl⟩
          have := List.find?_eq_none.mp hfst (f j) hmem
          cases hq : p (f j) with
          | false => rfl
          | true => exact absurd hq this
    · rintro ⟨k, hk, rfl, hp, hmin⟩
      rcases Nat.lt_or_ge k n with hkn | hkn
      · have : ((List.range n).map f).find? p = some (f k) :=
          (ih (f k)).mpr ⟨k, hkn, rfl, hp, hmin⟩
        rw [this]
        rfl
      · have hkeq : n = k := by omega
        subst hkeq
        have hnone : ((List.range n).map f).find? p = none := by
          rw [List.find?_eq_none]
          intro y hy
          obtain ⟨j, hj, rfl⟩ := List.mem_map.mp hy
          rw [hmin j (List.mem_range.mp hj)]
          simp
        rw [hnone]
        dsimp only [Option.or]
        simp only [List.map_cons, List.map_nil, List.find?, hp]

theorem failStr_spec {tns : List ACNode} {s : List Char} (hs : s ≠ []) :
    SMem tns (failStr tns s) ∧
    failStr tns s <:+ s ∧ (failStr tns s).length < s.length ∧
    (∀ t, t <:+ s → t.length < s.length → SMem tns t →
      t.length ≤ (failStr tns s).length) := by
  have hlen : 0 < s.length := List.length_pos.mpr hs
  cases hf : (((List.range s.length).map (fun k => s.drop (k + 1))).find?
      (fun t => (follow tns 0 t).isSome)) with
  | none =>
    exfalso
    have hmem : ([] : List Char) ∈ (List.range s.length).map (fun k => s.drop (k + 1)) := by
      refine List.mem_map.mpr ⟨s.length - 1, List.mem_range.mpr (by omega), ?_⟩
      rw [show s.length - 1 + 1 = s.length by omega]
      simp
    have := List.find?_eq_none.mp hf [] hmem
    simp [follow] at this
  | some x =>
    have hfail : failStr tns s = x := by
      rw [failStr, hf]
      rfl
    obtain ⟨k, hk, hx, hp, hmin⟩ := (find?_map_range _ _ s.length x).mp hf
    subst hx
    rw [hfail]
    have hxlen : (s.drop (k + 1)).length = s.length - (k + 1) := List.length_drop _ _
    refine ⟨?_, List.drop_suffix _ _, by omega, ?_⟩
    · exact Option.isSome_iff_exists.mp hp
    · intro t hsuf htlen hsm
      obtain ⟨k', hk', rfl⟩ := suffix_iff_drop.mp hsuf
      have hk'1 : 1 ≤ k' := by
        by_contra h0
        have : k' = 0 := by omega
        subst this
        rw [List.drop_zero] at htlen
        omega
      have hdrop : s.drop (k' - 1 + 1) = s.drop k' := by
        congr 1
        omega
      have hpt : (follow tns 0 (s.drop (k' - 1 + 1))).isSome = true := by
        rw [hdrop]
        obtain ⟨n, hn⟩ := hsm
        simp [hn]
      have hge : k ≤ k' - 1 := by
        by_contra hlt
        have hcontra := hmin (k' - 1) (by omega)
        rw [hcontra] at hpt
        cases hpt
      have : (s.drop k').length = s.length - k' := List.length_drop _ _
      omega

theorem suffix_snoc_of_suffix {l₁ l₂ : List Char} (c : Char) (h : l₁ <:+ l₂) :
    l₁ ++ [c] <:+ l₂ ++ [c] := by
  obtain ⟨w, rfl⟩ := h
  exact ⟨w, by simp⟩

theorem suffix_snoc_cases {v t : List Char} {c : Char} (h : v <:+ t ++ [c]) :
    v = [] ∨ ∃ w, v = w ++ [c] ∧ w <:+ t := by
  obtain ⟨u, hu⟩ := h
  rcases List.eq_nil_or_concat v with rfl | ⟨v', d, rfl⟩
  · exact Or.inl rfl
  · right
    rw [List.concat_eq_append, ← List.append_assoc] at hu
    obtain ⟨h1, h2⟩ := List.append_inj' hu rfl
    injection h2 with h2
    subst h2
    exact ⟨v', List.concat_eq_append v' d, ⟨u, h1⟩⟩

/-! ### The fail-chain walk -/

theorem walkFail_spec {tns ns : List ACNode}
    (hnext : ∀ m, (nd ns m).next = (nd tns m).next) (wf : TrieWF tns) (c : Char) :
    ∀ (fuel : Nat) (t : List Char) (f : Nat), follow tns 0 t = some f →
    ChainOK tns ns t → t.length < fuel →
    ∃ u g, follow tns 0 u = some g ∧ walkFail ns f c fuel = g ∧ u <:+ t ∧
      ((∃ n', edgeTo tns g c = some n' ∧ follow tns 0 (u ++ [c]) = some n' ∧
          ∀ u', u' <:+ t → SMem tns (u' ++ [c]) → u'.length ≤ u.length) ∨
       (g = 0 ∧ u = [] ∧ ∀ u', u' <:+ t → ¬ SMem tns (u' ++ [c]))) := by
  intro fuel
  induction fuel with
  | zero => intro t f _ _ h; omega
  | succ fuel ih =>
    intro t f hf hchain hlt
    by_cases hf0 : f = 0
    · subst hf0
      have ht : t = [] := (follow_zero_len wf hf).2 rfl
      subst ht
      have hw : walkFail ns 0 c (fuel + 1) = 0 := by simp [walkFail]
      cases he : edgeTo tns 0 c with
      | some n' =>
        refine ⟨[], 0, rfl, hw, List.suffix_refl _, Or.inl ⟨n', he, ?_, ?_⟩⟩
        · rw [List.nil_append, follow_single]
          exact he
        · intro u' hu' _
          have : u' = [] := List.suffix_nil.mp hu'
          simp [this]
      | none =>
        refine ⟨[], 0, rfl, hw, List.suffix_refl _, Or.inr ⟨rfl, rfl, ?_⟩⟩
        intro u' hu' hsm
        have hu0 : u' = [] := List.suffix_nil.mp hu'
        subst hu0
        obtain ⟨m, hm⟩ := hsm
        rw [List.nil_append, follow_single, he] at hm
        cases hm
    · have ht : t ≠ [] := by
        rintro rfl
        simp only [follow, Option.some.injEq] at hf
        exact hf0 hf.symm
      cases he : alookup (nd ns f).next c with
      | some n' =>
        have hw : walkFail ns f c (fuel + 1) = f := by
          simp [walkFail, he]
        have he' : edgeTo tns f c = some n' := by
          rw [edgeTo, ← hnext f]
          exact he
        refine ⟨t, f, hf, hw, List.suffix_refl _, Or.inl ⟨n', he', ?_, ?_⟩⟩
        · rw [follow_snoc, hf]
          dsimp only [Option.bind]
          exact he'
        · intro u' hu' _
          exact List.IsSuffix.length_le hu'
      | none =>
        have hetns : edgeTo tns f c = none := by
          rw [edgeTo, ← hnext f]
          exact he
        have hfail := hchain f t hf ht (List.suffix_refl t)
        obtain ⟨hsmemF, hsufF, hlenF, hmaxF⟩ := @failStr_spec tns _ ht
        have hchain' : ChainOK tns ns (failStr tns t) :=
          fun m t' h1 h2 h3 => hchain m t' h1 h2 (h3.trans hsufF)
        have hlt' : (failStr tns t).length < fuel := by omega
        obtain ⟨u, g, hu, hwrec, husuf, hcase⟩ := ih _ _ hfail hchain' hlt'
        have hw : walkFail ns f c (fuel + 1) = walkFail ns (nd ns f).fail c fuel := by
          simp [walkFail, hf0, he]
        have hnoedge : ∀ u', u' <:+ t → SMem tns (u' ++ [c]) → u' ≠ t := by
          intro u' _ hsm hequ
          subst hequ
          obtain ⟨m, hm⟩ := hsm
          rw [follow_snoc, hf] at hm
          dsimp only [Option.bind] at hm
          rw [hetns] at hm
          cases hm
        have hsufsub : ∀ u', u' <:+ t → SMem tns (u' ++ [c]) → u' <:+ failStr tns t := by
          intro u' hu' hsm
          have hne := hnoedge u' hu' hsm
          have hlen' : u'.length < t.length :=
            Nat.lt_of_le_of_ne (List.IsSuffix.length_le hu')
              (fun heq => hne (List.IsSuffix.eq_of_length hu' heq))
          have hsm' : SMem tns u' := SMem_of_append hsm
          exact suffix_comparable hu' hsufF (hmaxF u' hu' hlen' hsm')
        refine ⟨u, g, hu, by rw [hw]; exact hwrec, husuf.trans hsufF, ?_⟩
        rcases hcase with ⟨n', hedge, hfol, hmax⟩ | ⟨hg0, hunil, hnone⟩
        · left
          refine ⟨n', hedge, hfol, ?_⟩
          intro u' hu' hsm
          exact hmax u' (hsufsub u' hu' hsm) hsm
        · right
          refine ⟨hg0, hunil, ?_⟩
          intro u' hu' hsm
          exact hnone u' (hsufsub u' hu' hsm) hsm

/-- Uniqueness of "longest suffix with property": two suffixes of `s` with
equal maximal length are equal. -/
theorem longest_suffix_unique {v₁ v₂ s : List Char} (h₁ : v₁ <:+ s) (h₂ : v₂ <:+ s)
    (l₁ : v₂.length ≤ v₁.length) (l₂ : v₁.length ≤ v₂.length) : v₁ = v₂ := by
  have hlen : v₁.length = v₂.length := Nat.le_antisymm l₂ l₁
  exact List.IsSuffix.eq_of_length (suffix_comparable h₁ h₂ l₂) hlen

/-- The combined walk-and-transition of both `processChild` and `scanStep`:
starting from the node of `t`, the result is the node of the longest
`v' ++ [c]` in the trie with `v' <:+ t`, or the root when there is none. -/
theorem walk_trans_spec {tns ns : List ACNode}
    (hnext : ∀ m, (nd ns m).next = (nd tns m).next) (_hlen : ns.length = tns.length)
    (wf : TrieWF tns) (c : Char) {t : List Char} {f : Nat}
    (hf : follow tns 0 t = some f) (hchain : ChainOK tns ns t)
    (hfuel : t.length < ns.length) :
    ∃ v g, follow tns 0 v = some g ∧
      (alookup (nd ns (walkFail ns f c ns.length)).next c).getD 0 = g ∧
      ((∃ v', v = v' ++ [c] ∧ v' <:+ t ∧
          ∀ u', u' <:+ t → SMem tns (u' ++ [c]) → u'.length ≤ v'.length) ∨
       (v = [] ∧ g = 0 ∧ ∀ u', u' <:+ t → ¬ SMem tns (u' ++ [c]))) := by
  obtain ⟨u, g, hu, hw, husuf, hcase⟩ :=
    walkFail_spec hnext wf c ns.length t f hf hchain hfuel
  rw [hw]
  rcases hcase with ⟨n', hedge, hfol, hmax⟩ | ⟨hg0, hunil, hnone⟩
  · refine ⟨u ++ [c], n', hfol, ?_, Or.inl ⟨u, rfl, husuf, hmax⟩⟩
    rw [hnext g, ← edgeTo, hedge]
    rfl
  · subst hg0
    subst hunil
    have hroot : edgeTo tns 0 c = none := by
      cases hr : edgeTo tns 0 c with
      | none => rfl
      | some m =>
        exfalso
        apply hnone [] (List.nil_suffix)
        refine ⟨m, ?_⟩
        rw [List.nil_append, follow_single]
        exact hr
    refine ⟨[], 0, rfl, ?_, Or.inr ⟨rfl, rfl, hnone⟩⟩
    rw [hnext 0, ← edgeTo, hroot]
    rfl

/-! ### BFS phase: reachability, children, the preamble -/

theorem node_reachable {ns : List ACNode} (wf : TrieWF ns) :
    ∀ n, n < ns.length → ∃ s, follow ns 0 s = some n := by
  intro n
  induction n using Nat.strong_induction_on with
  | _ n ih =>
    intro hn
    by_cases h0 : n = 0
    · subst h0
      exact ⟨[], rfl⟩
    · obtain ⟨m, c, hm⟩ := wf.has_parent n (Nat.pos_of_ne_zero h0) hn
      have hmn := wf.edge_lt m c n hm
      obtain ⟨s, hs⟩ := ih m hmn.2 (by omega)
      refine ⟨s ++ [c], ?_⟩
      rw [follow_snoc, hs]
      dsimp only [Option.bind]
      exact hm

theorem ndepth_unique {tns : List ACNode} (wf : TrieWF tns) {n : Nat} {s s' : List Char}
    (h : follow tns 0 s = some n) (h' : follow tns 0 s' = some n) : s.length = s'.length := by
  rw [follow_inj wf n h h']

theorem mem_children_iff {tns : List ACNode} (wf : TrieWF tns) (r : Nat) (c : Char) (s : Nat) :
    (c, s) ∈ (nd tns r).next ↔ edgeTo tns r c = some s := by
  constructor
  · intro h
    exact mem_alookup (wf.keys_nodup r) h
  · intro h
    exact alookup_mem h

theorem children_targets_nodup {tns : List ACNode} (wf : TrieWF tns) (r : Nat) :
    (((nd tns r).next.map Prod.snd)).Nodup := by
  have hpairs : (nd tns r).next.Nodup := (wf.keys_nodup r).of_map _
  refine List.Nodup.map_on ?_ hpairs
  intro p₁ h₁ p₂ h₂ heq
  obtain ⟨c₁, s₁⟩ := p₁
  obtain ⟨c₂, s₂⟩ := p₂
  simp only at heq
  subst heq
  have e₁ := (mem_children_iff wf r c₁ s₁).mp h₁
  have e₂ := (mem_children_iff wf r c₂ s₁).mp h₂
  obtain ⟨-, rfl⟩ := wf.parent_uniq r c₁ r c₂ s₁ e₁ e₂
  rfl

theorem child_depth {tns : List ACNode} {r s : Nat} {c : Char} {sr : List Char}
    (he : edgeTo tns r c = some s) (hsr : follow tns 0 sr = some r) :
    follow tns 0 (sr ++ [c]) = some s := by
  rw [follow_snoc, hsr]
  dsimp only [Option.bind]
  exact he

theorem preamble_fold_spec :
    ∀ (ch : List (Char × Nat)) (ns : List ACNode),
    (∀ p ∈ ch, p.2 < ns.length) →
    (ch.foldl (fun acc p => updateNode acc p.2
        (fun node => { node with fail := 0 })) ns).length = ns.length ∧
    (∀ n, (nd (ch.foldl (fun acc p => updateNode acc p.2
        (fun node => { node with fail := 0 })) ns) n).next = (nd ns n).next ∧
      (nd (ch.foldl (fun acc p => updateNode acc p.2
        (fun node => { node with fail := 0 })) ns) n).outputs = (nd ns n).outputs) ∧
    (∀ p ∈ ch, (nd (ch.foldl (fun acc p => updateNode acc p.2
        (fun node => { node with fail := 0 })) ns) p.2).fail = 0) ∧
    (∀ n, n ∉ ch.map Prod.snd → (nd (ch.foldl (fun acc p => updateNode acc p.2
        (fun node => { node with fail := 0 })) ns) n).fail = (nd ns n).fail) := by
  intro ch
  induction ch with
  | nil =>
    intro ns _
    exact ⟨rfl, fun n => ⟨rfl, rfl⟩, fun p hp => absurd hp (List.not_mem_nil p),
      fun n _ => rfl⟩
  | cons hd tl ih =>
    intro ns hb
    have hhd : hd.2 < ns.length := hb hd (List.mem_cons_self _ _)
    have hb' : ∀ p ∈ tl, p.2 < (updateNode ns hd.2
        (fun node => { node with fail := 0 })).length := by
      intro p hp
      rw [length_updateNode]
      exact hb p (List.mem_cons_of_mem _ hp)
    obtain ⟨ihl, ihn, ihf, ihu⟩ := ih (updateNode ns hd.2
      (fun node => { node with fail := 0 })) hb'
    simp only [List.foldl_cons]
    refine ⟨by rw [ihl, length_updateNode], ?_, ?_, ?_⟩
    · intro n
      refine ⟨?_, ?_⟩
      · rw [(ihn n).1]
        by_cases hn : hd.2 = n
        · subst hn
          rw [nd_updateNode_self _ hhd]
        · rw [nd_updateNode_ne _ hn]
      · rw [(ihn n).2]
        by_cases hn : hd.2 = n
        · subst hn
          rw [nd_updateNode_self _ hhd]
        · rw [nd_updateNode_ne _ hn]
    · intro p hp
      rcases List.mem_cons.mp hp with heq | hp
      · rw [heq]
        by_cases hmem : hd.2 ∈ tl.map Prod.snd
        · obtain ⟨p', hp', hpeq⟩ := List.mem_map.mp hmem
          nth_rewrite 2 [← hpeq]
          exact ihf p' hp'
        · rw [ihu hd.2 hmem, nd_updateNode_self _ hhd]
      · exact ihf p hp
    · intro n hn
      simp only [List.map_cons, List.mem_cons, not_or] at hn
      rw [ihu n hn.2, nd_updateNode_ne _ (Ne.symm hn.1)]

theorem follow_lt_length {tns : List ACNode} (wf : TrieWF tns) {n : Nat} {s : List Char}
    (h : follow tns 0 s = some n) : n < tns.length := by
  rcases follow_le wf h with h1 | ⟨_, rfl⟩
  · exact h1
  · exact List.length_pos.mpr wf.nonnil

/-- Correctness of one `processChild` call: in a state where the fail links
along `sr`'s fail chain are final and every node at depth up to `sr.length`
has final outputs, the child `s` of `r` via `c` receives its final fail link
(the node of `failStr (sr ++ [c])`) and its final outputs (the patterns that
are suffixes of `sr ++ [c]`); no other node changes. -/
theorem processChild_spec {tns acc : List ACNode} {pats : List (List Char)}
    (ginv : GotoInv tns pats)
    (hlen : acc.length = tns.length)
    (hnext : ∀ n, (nd acc n).next = (nd tns n).next)
    {r s : Nat} {c : Char} {sr : List Char}
    (hr : follow tns 0 sr = some r) (hrne : sr ≠ [])
    (hedge : edgeTo tns r c = some s)
    (hfailr : follow tns 0 (failStr tns sr) = some ((nd acc r).fail))
    (hchain : ChainOK tns acc (failStr tns sr))
    (hout : ∀ m u, follow tns 0 u = some m → u.length ≤ sr.length →
      ∀ p, p ∈ (nd acc m).outputs ↔ p ∈ pats ∧ p <:+ u)
    (houts_s : (nd acc s).outputs = (nd tns s).outputs) :
    (processChild acc r c s).length = acc.length ∧
    (∀ n, (nd (processChild acc r c s) n).next = (nd acc n).next) ∧
    (∀ n, n ≠ s → nd (processChild acc r c s) n = nd acc n) ∧
    follow tns 0 (failStr tns (sr ++ [c])) = some ((nd (processChild acc r c s) s).fail) ∧
    (∀ p, p ∈ (nd (processChild acc r c s) s).outputs ↔ p ∈ pats ∧ p <:+ sr ++ [c]) := by
  have wf := ginv.wf
  have hslen : s < tns.length := (wf.edge_lt r c s hedge).1
  have hrs : r < s := (wf.edge_lt r c s hedge).2
  have hrlen : sr.length ≤ r := by
    have := follow_gain wf hr
    omega
  have hchild : follow tns 0 (sr ++ [c]) = some s := child_depth hedge hr
  obtain ⟨hsmF, hsufF, hlenF, hmaxF⟩ := @failStr_spec tns _ hrne
  have hsrne2 : sr ++ [c] ≠ [] := by simp
  obtain ⟨hsm2, hsuf2, hlen2, hmax2⟩ := @failStr_spec tns _ hsrne2
  have hfuel : (failStr tns sr).length < acc.length := by
    rw [hlen]
    omega
  obtain ⟨u, g, hu, hw, husuf, hcase⟩ :=
    walkFail_spec hnext wf c acc.length (failStr tns sr) ((nd acc r).fail) hfailr hchain hfuel
  have hkey : ∃ fl, (alookup (nd acc g).next c).getD 0 = fl ∧
      follow tns 0 (failStr tns (sr ++ [c])) = some fl := by
    rcases hcase with ⟨n', hedge', hfol, hmax⟩ | ⟨hg0, hunil, hnone⟩
    · refine ⟨n', ?_, ?_⟩
      · rw [hnext g, ← edgeTo, hedge']
        rfl
      · have husr : u <:+ sr := husuf.trans hsufF
        have hmem1 : u ++ [c] <:+ sr ++ [c] := suffix_snoc_of_suffix c husr
        have hulen : (u ++ [c]).length < (sr ++ [c]).length := by
          have h1 : u.length ≤ (failStr tns sr).length := List.IsSuffix.length_le husuf
          simp only [List.length_append, List.length_cons, List.length_nil]
          omega
        have hstep4 : (u ++ [c]).length ≤ (failStr tns (sr ++ [c])).length :=
          hmax2 (u ++ [c]) hmem1 hulen ⟨n', hfol⟩
        rcases suffix_snoc_cases hsuf2 with hnil | ⟨w, hweq, hwsuf⟩
        · rw [hnil] at hstep4
          simp at hstep4
        · have hwlen : w.length < sr.length := by
            rw [hweq] at hlen2
            simp only [List.length_append, List.length_cons, List.length_nil] at hlen2
            omega
          have hwsm : SMem tns (w ++ [c]) := by
            rw [← hweq]
            exact hsm2
          have hwsm' : SMem tns w := SMem_of_append hwsm
          have hwF : w <:+ failStr tns sr :=
            suffix_comparable hwsuf hsufF (hmaxF w hwsuf hwlen hwsm')
          have hwu : w.length ≤ u.length := hmax w hwF hwsm
          have hle : (failStr tns (sr ++ [c])).length ≤ (u ++ [c]).length := by
            rw [hweq]
            simp only [List.length_append, List.length_cons, List.length_nil]
            omega
          have heq : u ++ [c] = failStr tns (sr ++ [c]) :=
            longest_suffix_unique hmem1 hsuf2 hle hstep4
          rw [← heq]
          exact hfol
    · subst hg0
      subst hunil
      have hroot : edgeTo tns 0 c = none := by
        cases hrt : edgeTo tns 0 c with
        | none => rfl
        | some n0 =>
          exfalso
          apply hnone [] (List.nil_suffix)
          refine ⟨n0, ?_⟩
          rw [List.nil_append, follow_single]
          exact hrt
      have hfnil : failStr tns (sr ++ [c]) = [] := by
        rcases suffix_snoc_cases hsuf2 with hnil | ⟨w, hweq, hwsuf⟩
        · exact hnil
        · exfalso
          have hwlen : w.length < sr.length := by
            rw [hweq] at hlen2
            simp only [List.length_append, List.length_cons, List.length_nil] at hlen2
            omega
          have hwsm : SMem tns (w ++ [c]) := by
            rw [← hweq]
            exact hsm2
          have hwsm' : SMem tns w := SMem_of_append hwsm
          have hwF : w <:+ failStr tns sr :=
            suffix_comparable hwsuf hsufF (hmaxF w hwsuf hwlen hwsm')
          exact hnone w hwF hwsm
      refine ⟨0, ?_, ?_⟩
      · rw [hnext 0, ← edgeTo, hroot]
        rfl
      · rw [hfnil]
        rfl
  obtain ⟨fl, hflval, hflfol⟩ := hkey
  have hfllen : (failStr tns (sr ++ [c])).length ≤ sr.length := by
    simp only [List.length_append, List.length_cons, List.length_nil] at hlen2
    omega
  have hfls : fl ≠ s := by
    intro heq
    subst heq
    have := follow_inj wf fl hflfol hchild
    have h1 : (failStr tns (sr ++ [c])).length = (sr ++ [c]).length := by rw [this]
    simp only [List.length_append, List.length_cons, List.length_nil] at h1
    omega
  have hflout := hout fl _ hflfol hfllen
  have hslen' : s < acc.length := by
    rw [hlen]
    exact hslen
  have hpc : processChild acc r c s =
      updateNode (updateNode acc s (fun node => { node with fail := fl })) s
        (fun node => { node with outputs := node.outputs ++
          (nd (updateNode acc s (fun node => { node with fail := fl })) fl).outputs }) := by
    simp only [processChild]
    rw [hw, hflval]
  have hslen1 : s < (updateNode acc s (fun node => { node with fail := fl })).length := by
    rw [length_updateNode]
    exact hslen'
  have hn1fl : nd (updateNode acc s (fun node => { node with fail := fl })) fl = nd acc fl :=
    nd_updateNode_ne _ (fun h => hfls h.symm)
  refine ⟨?_, ?_, ?_, ?_, ?_⟩
  · rw [hpc, length_updateNode, length_updateNode]
  · intro n
    rw [hpc]
    by_cases hn : n = s
    · subst hn
      rw [nd_updateNode_self _ hslen1, nd_updateNode_self _ hslen']
    · rw [nd_updateNode_ne _ (fun h => hn h.symm), nd_updateNode_ne _ (fun h => hn h.symm)]
  · intro n hn
    rw [hpc, nd_updateNode_ne _ (fun h => hn h.symm), nd_updateNode_ne _ (fun h => hn h.symm)]
  · rw [hpc, nd_updateNode_self _ hslen1, nd_updateNode_self _ hslen']
    exact hflfol
  · intro p
    rw [hpc, nd_updateNode_self _ hslen1, nd_updateNode_self _ hslen', hn1fl]
    simp only [List.mem_append]
    rw [houts_s]
    rw [ginv.outputs_iff s p, hflout p]
    constructor
    · rintro (⟨hp, hpf⟩ | ⟨hp, hpsuf⟩)
      · have := follow_inj wf s hpf hchild
        subst this
        exact ⟨hp, List.suffix_refl _⟩
      · exact ⟨hp, hpsuf.trans hsuf2⟩
    · rintro ⟨hp, hpsuf⟩
      by_cases hpe : p = sr ++ [c]
      · subst hpe
        exact Or.inl ⟨hp, hchild⟩
      · right
        refine ⟨hp, ?_⟩
        have hplen : p.length < (sr ++ [c]).length := by
          have h1 := List.IsSuffix.length_le hpsuf
          rcases Nat.lt_or_ge p.length (sr ++ [c]).length with h2 | h2
          · exact h2
          · exfalso
            exact hpe (List.IsSuffix.eq_of_length hpsuf (by omega))
        have hpsm : SMem tns p :=
          (ginv.strings_iff p).mpr (Or.inr ⟨p, hp, List.prefix_refl p⟩)
        exact suffix_comparable hpsuf hsuf2 (hmax2 p hpsuf hplen hpsm)

/-- Correctness of the BFS inner loop: folding `processChild` over the
children of the popped node `r` finalizes every child's fail link and
outputs and leaves every other node untouched. -/
theorem children_fold_spec {tns : List ACNode} {pats : List (List Char)}
    (ginv : GotoInv tns pats) {r : Nat} {sr : List Char}
    (hr : follow tns 0 sr = some r) (hrne : sr ≠ []) :
    ∀ (ch : List (Char × Nat)) (ns : List ACNode),
    (∀ p ∈ ch, edgeTo tns r p.1 = some p.2) →
    (ch.map Prod.snd).Nodup →
    ns.length = tns.length →
    (∀ n, (nd ns n).next = (nd tns n).next) →
    follow tns 0 (failStr tns sr) = some ((nd ns r).fail) →
    ChainOK tns ns (failStr tns sr) →
    (∀ m u, follow tns 0 u = some m → u.length ≤ sr.length →
      ∀ p, p ∈ (nd ns m).outputs ↔ p ∈ pats ∧ p <:+ u) →
    (∀ p ∈ ch, (nd ns p.2).outputs = (nd tns p.2).outputs) →
    (ch.foldl (fun acc p => processChild acc r p.1 p.2) ns).length = ns.length ∧
    (∀ n, (nd (ch.foldl (fun acc p => processChild acc r p.1 p.2) ns) n).next
        = (nd ns n).next) ∧
    (∀ n, n ∉ ch.map Prod.snd →
      nd (ch.foldl (fun acc p => processChild acc r p.1 p.2) ns) n = nd ns n) ∧
    (∀ p ∈ ch,
      follow tns 0 (failStr tns (sr ++ [p.1]))
        = some ((nd (ch.foldl (fun acc p => processChild acc r p.1 p.2) ns) p.2).fail) ∧
      ∀ q, q ∈ (nd (ch.foldl (fun acc p => processChild acc r p.1 p.2) ns) p.2).outputs
        ↔ q ∈ pats ∧ q <:+ sr ++ [p.1]) := by
  intro ch
  induction ch with
  | nil =>
    intro ns _ _ _ _ _ _ _ _
    exact ⟨rfl, fun n => rfl, fun n _ => rfl, fun p hp => absurd hp (List.not_mem_nil p)⟩
  | cons hd tl ih =>
    intro ns hch hnd hlen hnext hfailr hchain hout houts
    have hedge := hch hd (List.mem_cons_self _ _)
    obtain ⟨hl1, hn1, hu1, hf1, ho1⟩ :=
      processChild_spec ginv hlen hnext hr hrne hedge hfailr hchain hout
        (houts hd (List.mem_cons_self _ _))
    have hchild : follow tns 0 (sr ++ [hd.1]) = some hd.2 := child_depth hedge hr
    have hdiff : ∀ m u, follow tns 0 u = some m → u.length ≤ sr.length → m ≠ hd.2 := by
      intro m u hm hle heq
      subst heq
      have hequ := follow_inj ginv.wf hd.2 hm hchild
      rw [hequ] at hle
      simp only [List.length_append, List.length_cons, List.length_nil] at hle
      omega
    have hrhd : r ≠ hd.2 :=
      Nat.ne_of_lt (ginv.wf.edge_lt r hd.1 hd.2 hedge).2
    obtain ⟨hsmF, hsufF, hlenF, hmaxF⟩ := @failStr_spec tns _ hrne
    have hnotmem : hd.2 ∉ tl.map Prod.snd := (List.nodup_cons.mp hnd).1
    have hlen1 : (processChild ns r hd.1 hd.2).length = tns.length := by rw [hl1, hlen]
    have hnext1 : ∀ n, (nd (processChild ns r hd.1 hd.2) n).next = (nd tns n).next :=
      fun n => (hn1 n).trans (hnext n)
    have hfailr1 : follow tns 0 (failStr tns sr)
        = some ((nd (processChild ns r hd.1 hd.2) r).fail) := by
      rw [hu1 r hrhd]
      exact hfailr
    have hchain1 : ChainOK tns (processChild ns r hd.1 hd.2) (failStr tns sr) := by
      intro m t' h1 h2 h3
      have hle : t'.length ≤ sr.length := by
        have := List.IsSuffix.length_le h3
        omega
      rw [hu1 m (hdiff m t' h1 hle)]
      exact hchain m t' h1 h2 h3
    have hout1 : ∀ m u, follow tns 0 u = some m → u.length ≤ sr.length →
        ∀ p, p ∈ (nd (processChild ns r hd.1 hd.2) m).outputs ↔ p ∈ pats ∧ p <:+ u := by
      intro m u hm hle p
      rw [hu1 m (hdiff m u hm hle)]
      exact hout m u hm hle p
    have houts1 : ∀ p ∈ tl,
        (nd (processChild ns r hd.1 hd.2) p.2).outputs = (nd tns p.2).outputs := by
      intro p hp
      have hne : p.2 ≠ hd.2 := by
        intro heq
        exact hnotmem (heq ▸ List.mem_map.mpr ⟨p, hp, rfl⟩)
      rw [hu1 p.2 hne]
      exact houts p (List.mem_cons_of_mem _ hp)
    obtain ⟨ihl, ihn, ihu, ihf⟩ := ih (processChild ns r hd.1 hd.2)
      (fun p hp => hch p (List.mem_cons_of_mem _ hp)) (List.nodup_cons.mp hnd).2
      hlen1 hnext1 hfailr1 hchain1 hout1 houts1
    simp only [List.foldl_cons]
    refine ⟨ihl.trans hl1, fun n => (ihn n).trans (hn1 n), ?_, ?_⟩
    · intro n hn
      simp only [List.map_cons, List.mem_cons, not_or] at hn
      rw [ihu n hn.2, hu1 n hn.1]
    · intro p hp
      rcases List.mem_cons.mp hp with heq | hp
      · rw [heq, ihu hd.2 hnotmem]
        exact ⟨hf1, ho1⟩
      · exact ihf p hp

/-- Any positive node whose depth is at most the current BFS frontier depth
has already been seen (popped or enqueued). -/
theorem depth_le_mem {tns : List ACNode} (wf : TrieWF tns) {popped q : List Nat} {d : Nat}
    (hmi : ∀ n, (n ∈ popped ∨ n ∈ q) ↔ DoneP tns popped n)
    (hsp : ShallowPopped tns popped d)
    {m dm : Nat} (hm : 0 < m) (hdep : NDepth tns m dm) (hle : dm ≤ d) :
    m ∈ popped ∨ m ∈ q := by
  rcases Nat.lt_or_ge dm d with h | h
  · exact Or.inl (hsp m dm hm hdep h)
  · have hdm : dm = d := by omega
    subst hdm
    obtain ⟨sm, hsm, hsmlen⟩ := hdep
    have hsmne : sm ≠ [] := by
      rintro rfl
      simp only [follow, Option.some.injEq] at hsm
      omega
    obtain ⟨w, ch, rfl⟩ := (List.eq_nil_or_concat sm).resolve_left hsmne
    rw [List.concat_eq_append] at hsm hsmlen
    rw [follow_snoc] at hsm
    cases hfw : follow tns 0 w with
    | none => rw [hfw] at hsm; cases hsm
    | some m' =>
      rw [hfw] at hsm
      dsimp only [Option.bind] at hsm
      by_cases hw : w = []
      · subst hw
        simp only [follow, Option.some.injEq] at hfw
        subst hfw
        exact (hmi m).mpr (Or.inl ⟨ch, hsm⟩)
      · have hm'pos : 0 < m' := by
          rcases Nat.eq_zero_or_pos m' with h0 | h0
          · subst h0
            exact absurd ((follow_zero_len wf hfw).2 rfl) hw
          · exact h0
        have hm'dep : NDepth tns m' w.length := ⟨w, hfw, rfl⟩
        have hwlen : w.length < dm := by
          simp only [List.length_append, List.length_cons, List.length_nil] at hsmlen
          omega
        have hm'pop : m' ∈ popped := hsp m' w.length hm'pos hm'dep (by omega)
        exact (hmi m).mpr (Or.inr ⟨m', hm'pop, ch, hsm⟩)

/-- When the whole queue sits at depth `d + 1`, every positive node at depth
`d` or less has been popped. -/
theorem shallow_step {tns : List ACNode} (wf : TrieWF tns) {popped q : List Nat} {d : Nat}
    (hmi : ∀ n, (n ∈ popped ∨ n ∈ q) ↔ DoneP tns popped n)
    (hsp : ShallowPopped tns popped d)
    (hq1 : ∀ n ∈ q, NDepth tns n (d + 1)) :
    ShallowPopped tns popped (d + 1) := by
  intro m dm hm hdep hlt
  rcases Nat.lt_or_ge dm d with h | h
  · exact hsp m dm hm hdep h
  · have hdm : dm = d := by omega
    subst hdm
    rcases depth_le_mem wf hmi hsp hm hdep (Nat.le_refl dm) with h1 | h1
    · exact h1
    · exfalso
      obtain ⟨s1, hs1, hl1⟩ := hdep
      obtain ⟨s2, hs2, hl2⟩ := hq1 m h1
      have heq := follow_inj wf m hs1 hs2
      rw [heq] at hl1
      omega

/-- One iteration of the BFS `while q:` loop preserves the invariant: popping
`r` and processing its children keeps `BfsInv`, keeps the two-depth queue
shape, and keeps every shallower node popped. -/
theorem bfs_step {tns ns : List ACNode} {pats : List (List Char)}
    {popped : List Nat} {r : Nat} {rest : List Nat} {d : Nat}
    (ginv : GotoInv tns pats)
    (inv : BfsInv tns pats ns popped (r :: rest))
    (hq : QShape tns (r :: rest) d)
    (hsp : ShallowPopped tns popped d)
    (hrd : NDepth tns r d) :
    BfsInv tns pats
      ((nd ns r).next.foldl (fun acc p => processChild acc r p.1 p.2) ns)
      (popped ++ [r]) (rest ++ (nd ns r).next.map (fun p => p.2)) ∧
    QShape tns (rest ++ (nd ns r).next.map (fun p => p.2)) d ∧
    ShallowPopped tns (popped ++ [r]) d := by
  have wf := ginv.wf
  rw [inv.next_eq r]
  have hrpos : 0 < r := inv.q_pos r (List.mem_cons_self _ _)
  obtain ⟨sr, hsr, hsrlen⟩ := hrd
  have hsrne : sr ≠ [] := by
    rintro rfl
    simp only [follow, Option.some.injEq] at hsr
    omega
  obtain ⟨hsmF, hsufF, hlenF, hmaxF⟩ := @failStr_spec tns _ hsrne
  have hched : ∀ p ∈ (nd tns r).next, edgeTo tns r p.1 = some p.2 := by
    intro p hp
    exact (mem_children_iff wf r p.1 p.2).mp hp
  have hchild : ∀ p ∈ (nd tns r).next, follow tns 0 (sr ++ [p.1]) = some p.2 := by
    intro p hp
    exact child_depth (hched p hp) hsr
  have hfresh : ∀ p ∈ (nd tns r).next, ¬(p.2 ∈ popped ∨ p.2 ∈ r :: rest) := by
    intro p hp hmem
    rcases (inv.member_iff p.2).mp hmem with ⟨c', hc'⟩ | ⟨r', hr', c', hc'⟩
    · obtain ⟨h0, -⟩ := wf.parent_uniq 0 c' r p.1 p.2 hc' (hched p hp)
      omega
    · obtain ⟨h0, -⟩ := wf.parent_uniq r' c' r p.1 p.2 hc' (hched p hp)
      subst h0
      have hdisj := (List.nodup_append.mp inv.nodup).2.2
      exact hdisj hr' (List.mem_cons_self _ _)
  have hfailr : follow tns 0 (failStr tns sr) = some ((nd ns r).fail) :=
    inv.done_fail r (Or.inr (List.mem_cons_self _ _)) sr hsr hsrne
  have hposString : ∀ (m : Nat) (t' : List Char),
      follow tns 0 t' = some m → t' ≠ [] → 0 < m := by
    intro m t' h1 h2
    rcases Nat.eq_zero_or_pos m with h0 | h0
    · subst h0
      exact absurd ((follow_zero_len wf h1).2 rfl) h2
    · exact h0
  have hchain : ChainOK tns ns (failStr tns sr) := by
    intro m t' h1 h2 h3
    have hm : 0 < m := hposString m t' h1 h2
    have hlen' : t'.length < d := by
      have := List.IsSuffix.length_le h3
      omega
    have hpop : m ∈ popped := hsp m t'.length hm ⟨t', h1, rfl⟩ (by omega)
    exact inv.done_fail m (Or.inl hpop) t' h1 h2
  have hout : ∀ m u, follow tns 0 u = some m → u.length ≤ sr.length →
      ∀ p, p ∈ (nd ns m).outputs ↔ p ∈ pats ∧ p <:+ u := by
    intro m u hm hle p
    by_cases hu : u = []
    · subst hu
      have hm0 : m = 0 := by
        simp only [follow, Option.some.injEq] at hm
        omega
      subst hm0
      have h0mem : ¬((0 : Nat) ∈ popped ∨ (0 : Nat) ∈ r :: rest) := by
        rintro (h | h)
        · exact absurd (inv.popped_pos 0 h) (by omega)
        · exact absurd (inv.q_pos 0 h) (by omega)
      rw [inv.untouched 0 h0mem]
      rw [ginv.outputs_iff 0 p]
      constructor
      · rintro ⟨hp, hpf⟩
        exact absurd ((follow_zero_len wf hpf).2 rfl) (ginv.pats_nonnil p hp)
      · rintro ⟨hp, hpsuf⟩
        exact absurd (List.suffix_nil.mp hpsuf) (ginv.pats_nonnil p hp)
    · have hm0 : 0 < m := hposString m u hm hu
      have hmem := depth_le_mem wf inv.member_iff hsp hm0 ⟨u, hm, rfl⟩ (by omega)
      exact inv.done_out m hmem u hm p
  have houts_ch : ∀ p ∈ (nd tns r).next, (nd ns p.2).outputs = (nd tns p.2).outputs := by
    intro p hp
    exact inv.untouched p.2 (hfresh p hp)
  have hndup : (((nd tns r).next).map Prod.snd).Nodup := children_targets_nodup wf r
  obtain ⟨hNl, hNn, hNu, hNf⟩ := children_fold_spec ginv hsr hsrne (nd tns r).next ns
    hched hndup inv.len_eq inv.next_eq hfailr hchain hout houts_ch
  set F := (nd tns r).next.foldl (fun acc p => processChild acc r p.1 p.2) ns with hF
  set chT := (nd tns r).next.map (fun p => p.2) with hchT
  have hsnd : chT = (nd tns r).next.map Prod.snd := rfl
  have hmem_new : ∀ n, (n ∈ popped ++ [r] ∨ n ∈ rest ++ chT) ↔
      ((n ∈ popped ∨ n ∈ r :: rest) ∨ n ∈ chT) := by
    intro n
    simp only [List.mem_append, List.mem_cons, List.mem_singleton]
    tauto
  have hdone_new : ∀ n, DoneP tns (popped ++ [r]) n ↔ (DoneP tns popped n ∨ n ∈ chT) := by
    intro n
    constructor
    · rintro (⟨c', hc'⟩ | ⟨r', hr', c', hc'⟩)
      · exact Or.inl (Or.inl ⟨c', hc'⟩)
      · rcases List.mem_append.mp hr' with h | h
        · exact Or.inl (Or.inr ⟨r', h, c', hc'⟩)
        · have hra : r' = r := List.mem_singleton.mp h
          subst hra
          right
          rw [hsnd]
          exact List.mem_map.mpr ⟨(c', n), alookup_mem hc', rfl⟩
    · rintro ((⟨c', hc'⟩ | ⟨r', hr', c', hc'⟩) | h)
      · exact Or.inl ⟨c', hc'⟩
      · exact Or.inr ⟨r', List.mem_append_left _ hr', c', hc'⟩
      · rw [hsnd] at h
        obtain ⟨p, hp, rfl⟩ := List.mem_map.mp h
        exact Or.inr ⟨r, List.mem_append_right _ (List.mem_singleton.mpr rfl),
          p.1, hched p hp⟩
  have hmi_new : ∀ n, (n ∈ popped ++ [r] ∨ n ∈ rest ++ chT) ↔
      DoneP tns (popped ++ [r]) n := by
    intro n
    rw [hmem_new n, inv.member_iff n, hdone_new n]
  have hnodup_new : (popped ++ [r] ++ (rest ++ chT)).Nodup := by
    have heq : popped ++ [r] ++ (rest ++ chT) = (popped ++ r :: rest) ++ chT := by
      simp
    rw [heq, List.nodup_append]
    refine ⟨inv.nodup, by rw [hsnd]; exact hndup, ?_⟩
    intro a ha hb
    rw [hsnd] at hb
    obtain ⟨p, hp, rfl⟩ := List.mem_map.mp hb
    apply hfresh p hp
    rcases List.mem_append.mp ha with h | h
    · exact Or.inl h
    · exact Or.inr h
  have hpos_new : ∀ n ∈ popped ++ [r], 0 < n := by
    intro n hn
    rcases List.mem_append.mp hn with h | h
    · exact inv.popped_pos n h
    · rw [List.mem_singleton.mp h]
      exact hrpos
  have hqpos_new : ∀ n ∈ rest ++ chT, 0 < n := by
    intro n hn
    rcases List.mem_append.mp hn with h | h
    · exact inv.q_pos n (List.mem_cons_of_mem _ h)
    · rw [hsnd] at h
      obtain ⟨p, hp, rfl⟩ := List.mem_map.mp h
      have := (wf.edge_lt r p.1 p.2 (hched p hp)).2
      omega
  have hdf_new : ∀ n, (n ∈ popped ++ [r] ∨ n ∈ rest ++ chT) → FailOK tns F n := by
    intro n hn
    by_cases hc : n ∈ chT
    · rw [hsnd] at hc
      obtain ⟨p, hp, rfl⟩ := List.mem_map.mp hc
      intro s hs hsne
      have hseq : s = sr ++ [p.1] := follow_inj wf p.2 hs (hchild p hp)
      rw [hseq]
      exact (hNf p hp).1
    · have hold : n ∈ popped ∨ n ∈ r :: rest := by
        rcases (hmem_new n).mp hn with h | h
        · exact h
        · exact absurd h hc
      intro s hs hsne
      have hc' : n ∉ (nd tns r).next.map Prod.snd := by
        rw [← hsnd]
        exact hc
      rw [hNu n hc']
      exact inv.done_fail n hold s hs hsne
  have hdo_new : ∀ n, (n ∈ popped ++ [r] ∨ n ∈ rest ++ chT) → OutOK tns F pats n := by
    intro n hn
    by_cases hc : n ∈ chT
    · rw [hsnd] at hc
      obtain ⟨p, hp, rfl⟩ := List.mem_map.mp hc
      intro s hs q
      have hseq : s = sr ++ [p.1] := follow_inj wf p.2 hs (hchild p hp)
      rw [hseq]
      exact (hNf p hp).2 q
    · have hold : n ∈ popped ∨ n ∈ r :: rest := by
        rcases (hmem_new n).mp hn with h | h
        · exact h
        · exact absurd h hc
      intro s hs q
      have hc' : n ∉ (nd tns r).next.map Prod.snd := by
        rw [← hsnd]
        exact hc
      rw [hNu n hc']
      exact inv.done_out n hold s hs q
  have hun_new : ∀ n, ¬(n ∈ popped ++ [r] ∨ n ∈ rest ++ chT) →
      (nd F n).outputs = (nd tns n).outputs := by
    intro n hn
    have hc : n ∉ chT := fun h => hn (Or.inr (List.mem_append_right _ h))
    have hold : ¬(n ∈ popped ∨ n ∈ r :: rest) := by
      intro h
      apply hn
      rw [hmem_new n]
      exact Or.inl h
    have hc' : n ∉ (nd tns r).next.map Prod.snd := by
      rw [← hsnd]
      exact hc
    rw [hNu n hc']
    exact inv.untouched n hold
  have hqs_new : QShape tns (rest ++ chT) d := by
    obtain ⟨qa, qb, heq, hqa, hqb⟩ := hq
    cases qa with
    | nil =>
      exfalso
      have hrqb : r ∈ qb := by
        rw [List.nil_append] at heq
        rw [← heq]
        exact List.mem_cons_self _ _
      obtain ⟨s2, hs2, hl2⟩ := hqb r hrqb
      have hss := follow_inj wf r hsr hs2
      rw [hss] at hsrlen
      omega
    | cons a qa' =>
      rw [List.cons_append] at heq
      injection heq with h1 h2
      subst h1
      refine ⟨qa', qb ++ chT, ?_, ?_, ?_⟩
      · rw [h2, List.append_assoc]
      · intro n hn
        exact hqa n (List.mem_cons_of_mem _ hn)
      · intro n hn
        rcases List.mem_append.mp hn with h | h
        · exact hqb n h
        · rw [hsnd] at h
          obtain ⟨p, hp, rfl⟩ := List.mem_map.mp h
          refine ⟨sr ++ [p.1], hchild p hp, ?_⟩
          simp [hsrlen]
  have hsp_new : ShallowPopped tns (popped ++ [r]) d := by
    intro m dm hm hdep hlt
    exact List.mem_append_left _ (hsp m dm hm hdep hlt)
  exact ⟨⟨hNl.trans inv.len_eq, fun n => (hNn n).trans (inv.next_eq n), hnodup_new,
    hpos_new, hqpos_new, hmi_new, hdf_new, hdo_new, hun_new⟩, hqs_new, hsp_new⟩

/-- When the queue is empty every positive node of the trie has been
popped. -/
theorem bfs_complete {tns ns : List ACNode} {pats : List (List Char)} {popped : List Nat}
    (ginv : GotoInv tns pats) (inv : BfsInv tns pats ns popped []) :
    ∀ n, 0 < n → n < tns.length → n ∈ popped := by
  have wf := ginv.wf
  intro n
  induction n using Nat.strong_induction_on with
  | _ n ih =>
    intro hn hlt
    obtain ⟨m, c, hm⟩ := wf.has_parent n hn hlt
    have hmn := wf.edge_lt m c n hm
    have hdp : DoneP tns popped n := by
      rcases Nat.eq_zero_or_pos m with h0 | h0
      · subst h0
        exact Or.inl ⟨c, hm⟩
      · exact Or.inr ⟨m, ih m hmn.2 h0 (by omega), c, hm⟩
    rcases (inv.member_iff n).mpr hdp with h | h
    · exact h
    · exact absurd h (List.not_mem_nil n)

/-- A `BfsInv` state with an empty queue is the post-BFS contract. -/
theorem bfsInv_fails {tns ns : List ACNode} {pats : List (List Char)} {popped : List Nat}
    (ginv : GotoInv tns pats) (inv : BfsInv tns pats ns popped []) :
    FailsInv tns ns pats := by
  have wf := ginv.wf
  have hposString : ∀ (m : Nat) (t' : List Char),
      follow tns 0 t' = some m → t' ≠ [] → 0 < m := by
    intro m t' h1 h2
    rcases Nat.eq_zero_or_pos m with h0 | h0
    · subst h0
      exact absurd ((follow_zero_len wf h1).2 rfl) h2
    · exact h0
  refine ⟨inv.len_eq, inv.next_eq, ?_, ?_⟩
  · intro n s hs hsne
    have hpos : 0 < n := hposString n s hs hsne
    have hlt : n < tns.length := follow_lt_length wf hs
    exact inv.done_fail n (Or.inl (bfs_complete ginv inv n hpos hlt)) s hs hsne
  · intro n s hs p
    by_cases hsne : s = []
    · subst hsne
      have hn0 : n = 0 := by
        simp only [follow, Option.some.injEq] at hs
        omega
      subst hn0
      have h0mem : ¬((0 : Nat) ∈ popped ∨ (0 : Nat) ∈ ([] : List Nat)) := by
        rintro (h | h)
        · exact absurd (inv.popped_pos 0 h) (by omega)
        · exact absurd h (List.not_mem_nil 0)
      rw [inv.untouched 0 h0mem, ginv.outputs_iff 0 p]
      constructor
      · rintro ⟨hp, hpf⟩
        exact absurd ((follow_zero_len wf hpf).2 rfl) (ginv.pats_nonnil p hp)
      · rintro ⟨hp, hpsuf⟩
        exact absurd (List.suffix_nil.mp hpsuf) (ginv.pats_nonnil p hp)
    · have hpos : 0 < n := hposString n s hs hsne
      have hlt : n < tns.length := follow_lt_length wf hs
      exact inv.done_out n (Or.inl (bfs_complete ginv inv n hpos hlt)) s hs p

/-- Counting: popped and queued nodes are distinct positive indices of the
trie, so there are at most `tns.length - 1` of them. -/
theorem bfs_card {tns ns : List ACNode} {pats : List (List Char)} {popped q : List Nat}
    (ginv : GotoInv tns pats) (inv : BfsInv tns pats ns popped q) :
    popped.length + q.length + 1 ≤ tns.length := by
  have wf := ginv.wf
  have hbound : ∀ n ∈ popped ++ q, 1 ≤ n ∧ n < tns.length := by
    intro n hn
    have hmem : n ∈ popped ∨ n ∈ q := List.mem_append.mp hn
    have hpos : 0 < n := by
      rcases hmem with h | h
      · exact inv.popped_pos n h
      · exact inv.q_pos n h
    rcases (inv.member_iff n).mp hmem with ⟨c, hc⟩ | ⟨r, _, c, hc⟩
    · exact ⟨hpos, (wf.edge_lt 0 c n hc).1⟩
    · exact ⟨hpos, (wf.edge_lt r c n hc).1⟩
  have hsub : popped ++ q ⊆ List.range' 1 (tns.length - 1) := by
    intro n hn
    obtain ⟨h1, h2⟩ := hbound n hn
    rw [List.mem_range']
    exact ⟨n - 1, by omega, by omega⟩
  have hsp := List.subperm_of_subset inv.nodup hsub
  have := List.Subperm.length_le hsp
  rw [List.length_append, List.length_range'] at this
  have hpos : 0 < tns.length := List.length_pos.mpr wf.nonnil
  omega

/-- The fuel-indexed BFS run: from any invariant state with enough fuel, the
run reaches the post-BFS contract. -/
theorem bfsRun_spec {tns : List ACNode} {pats : List (List Char)}
    (ginv : GotoInv tns pats) :
    ∀ (fuel : Nat) (ns : List ACNode) (popped q : List Nat) (d : Nat),
    BfsInv tns pats ns popped q → QShape tns q d → ShallowPopped tns popped d →
    tns.length ≤ fuel + popped.length + 1 →
    FailsInv tns (bfsRun ns q fuel) pats := by
  have wf := ginv.wf
  intro fuel
  induction fuel with
  | zero =>
    intro ns popped q d inv hq hsp hfuel
    have hcard := bfs_card ginv inv
    have hq0 : q = [] := by
      cases q with
      | nil => rfl
      | cons a l =>
        exfalso
        simp only [List.length_cons] at hcard
        omega
    subst hq0
    exact bfsInv_fails ginv inv
  | succ fuel ih =>
    intro ns popped q d inv hq hsp hfuel
    cases q with
    | nil => exact bfsInv_fails ginv inv
    | cons r rest =>
      have hstep : ∃ d', NDepth tns r d' ∧ QShape tns (r :: rest) d' ∧
          ShallowPopped tns popped d' := by
        obtain ⟨qa, qb, heq, hqa, hqb⟩ := hq
        cases qa with
        | nil =>
          rw [List.nil_append] at heq
          refine ⟨d + 1, ?_, ?_, ?_⟩
          · apply hqb
            rw [← heq]
            exact List.mem_cons_self _ _
          · refine ⟨r :: rest, [], (List.append_nil _).symm, ?_, ?_⟩
            · intro n hn
              apply hqb
              rw [← heq]
              exact hn
            · intro n hn
              exact absurd hn (List.not_mem_nil n)
          · apply shallow_step wf inv.member_iff hsp
            intro n hn
            apply hqb
            rw [← heq]
            exact hn
        | cons a qa' =>
          rw [List.cons_append] at heq
          injection heq with h1 h2
          refine ⟨d, ?_, ⟨a :: qa', qb, by rw [List.cons_append, ← h1, ← h2], hqa, hqb⟩,
            hsp⟩
          rw [h1]
          exact hqa a (List.mem_cons_self _ _)
      obtain ⟨d', hrd, hq', hsp'⟩ := hstep
      obtain ⟨inv', hq'', hsp''⟩ := bfs_step ginv inv hq' hsp' hrd
      simp only [bfsRun]
      apply ih _ (popped ++ [r]) _ d' inv' hq'' hsp''
      simp only [List.length_append, List.length_cons, List.length_nil]
      omega

/-- `buildFails` on a goto trie satisfying `GotoInv` produces the final
automaton: fail links point at the longest proper trie suffix and outputs
list exactly the patterns that are suffixes of each node's string. -/
theorem buildFails_spec {tns : List ACNode} {pats : List (List Char)}
    (ginv : GotoInv tns pats) :
    FailsInv tns (buildFails tns) pats := by
  have wf := ginv.wf
  have hb : ∀ p ∈ (nd tns 0).next, p.2 < tns.length := by
    intro p hp
    exact (wf.edge_lt 0 p.1 p.2 ((mem_children_iff wf 0 p.1 p.2).mp hp)).1
  obtain ⟨hPl, hPn, hPf, hPu⟩ := preamble_fold_spec (nd tns 0).next tns hb
  have hched : ∀ p ∈ (nd tns 0).next, edgeTo tns 0 p.1 = some p.2 := by
    intro p hp
    exact (mem_children_iff wf 0 p.1 p.2).mp hp
  have hchild : ∀ p ∈ (nd tns 0).next, follow tns 0 [p.1] = some p.2 := by
    intro p hp
    rw [follow_single]
    exact hched p hp
  have hsnd : ((nd tns 0).next.map (fun p => p.2)) = (nd tns 0).next.map Prod.snd := rfl
  have hinv : BfsInv tns pats
      ((nd tns 0).next.foldl
        (fun acc p => updateNode acc p.2 (fun node => { node with fail := 0 })) tns)
      [] ((nd tns 0).next.map (fun p => p.2)) := by
    refine ⟨hPl, fun n => (hPn n).1, ?_, ?_, ?_, ?_, ?_, ?_, ?_⟩
    · rw [List.nil_append, hsnd]
      exact children_targets_nodup wf 0
    · intro n hn
      exact absurd hn (List.not_mem_nil n)
    · intro n hn
      rw [hsnd] at hn
      obtain ⟨p, hp, rfl⟩ := List.mem_map.mp hn
      have := (wf.edge_lt 0 p.1 p.2 (hched p hp)).2
      omega
    · intro n
      constructor
      · rintro (h | h)
        · exact absurd h (List.not_mem_nil n)
        · rw [hsnd] at h
          obtain ⟨p, hp, rfl⟩ := List.mem_map.mp h
          exact Or.inl ⟨p.1, hched p hp⟩
      · rintro (⟨c, hc⟩ | ⟨r', hr', -, -⟩)
        · right
          rw [hsnd]
          exact List.mem_map.mpr ⟨(c, n), alookup_mem hc, rfl⟩
        · exact absurd hr' (List.not_mem_nil r')
    · rintro n (h | h)
      · exact absurd h (List.not_mem_nil n)
      · rw [hsnd] at h
        obtain ⟨p, hp, rfl⟩ := List.mem_map.mp h
        intro s hs hsne
        have hseq : s = [p.1] := follow_inj wf p.2 hs (hchild p hp)
        rw [hseq] at hsne ⊢
        have hfnil : failStr tns [p.1] = [] := by
          obtain ⟨-, -, hlenF, -⟩ := @failStr_spec tns _ hsne
          cases hfs : failStr tns [p.1] with
          | nil => rfl
          | cons x l =>
            exfalso
            rw [hfs] at hlenF
            simp at hlenF
        rw [hfnil, hPf p hp]
        rfl
    · rintro n (h | h)
      · exact absurd h (List.not_mem_nil n)
      · rw [hsnd] at h
        obtain ⟨p, hp, rfl⟩ := List.mem_map.mp h
        intro s hs q
        have hseq : s = [p.1] := follow_inj wf p.2 hs (hchild p hp)
        rw [hseq]
        rw [(hPn p.2).2, ginv.outputs_iff p.2 q]
        constructor
        · rintro ⟨hq, hqf⟩
          have heq2 : q = [p.1] := follow_inj wf p.2 hqf (hchild p hp)
          refine ⟨hq, ?_⟩
          rw [heq2]
        · rintro ⟨hq, hqsuf⟩
          refine ⟨hq, ?_⟩
          have hqne : q ≠ [] := ginv.pats_nonnil q hq
          have hql : q.length ≤ 1 := by
            have := List.IsSuffix.length_le hqsuf
            simpa using this
          have hql1 : q.length = ([p.1] : List Char).length := by
            have : 0 < q.length := List.length_pos.mpr hqne
            simp only [List.length_cons, List.length_nil]
            omega
          rw [List.IsSuffix.eq_of_length hqsuf hql1]
          exact hchild p hp
    · intro n _
      exact (hPn n).2
  have hqs : QShape tns ((nd tns 0).next.map (fun p => p.2)) 1 := by
    refine ⟨(nd tns 0).next.map (fun p => p.2), [], (List.append_nil _).symm, ?_, ?_⟩
    · intro n hn
      rw [hsnd] at hn
      obtain ⟨p, hp, rfl⟩ := List.mem_map.mp hn
      exact ⟨[p.1], hchild p hp, rfl⟩
    · intro n hn
      exact absurd hn (List.not_mem_nil n)
  have hsp : ShallowPopped tns ([] : List Nat) 1 := by
    intro m dm hm hdep hlt
    exfalso
    obtain ⟨sm, hsm, hsml⟩ := hdep
    have hdm0 : dm = 0 := by omega
    rw [hdm0] at hsml
    have : sm = [] := List.eq_nil_of_length_eq_zero hsml
    subst this
    simp only [follow, Option.some.injEq] at hsm
    omega
  simp only [buildFails]
  exact bfsRun_spec ginv tns.length _ [] _ 1 hinv hqs hsp (by omega)

/-! ### The scan phase of `find_best_match` -/

/-- The best-update fold keeps the first strictly longer pattern: the result
is `none` only from nothing, dominates everything seen, and is either the
old best or a strictly longer new pattern. -/
theorem updBest_spec :
    ∀ (outs : List (List Char)) (best : Option (List Char)),
    (updBest best outs = none ↔ best = none ∧ outs = []) ∧
    ∀ x, updBest best outs = some x →
      (best = some x ∨ (x ∈ outs ∧ ∀ b0, best = some b0 → b0.length < x.length)) ∧
      (∀ b0, best = some b0 → b0.length ≤ x.length) ∧
      (∀ y ∈ outs, y.length ≤ x.length) := by
  intro outs
  induction outs with
  | nil =>
    intro best
    constructor
    · simp [updBest]
    · intro x hx
      simp only [updBest, List.foldl_nil] at hx
      refine ⟨Or.inl hx, ?_, ?_⟩
      · intro b0 hb0
        rw [hb0] at hx
        injection hx with hx
        rw [hx]
      · intro y hy
        exact absurd hy (List.not_mem_nil y)
  | cons o outs' ih =>
    intro best
    have hstep : updBest best (o :: outs') =
        updBest (match best with
          | none => some o
          | some b0 => if b0.length < o.length then some o else some b0) outs' := by
      simp only [updBest, List.foldl_cons]
    constructor
    · rw [hstep]
      constructor
      · intro h
        exfalso
        have h1 := ((ih _).1).mp h
        cases best with
        | none => simp at h1
        | some b0 =>
          by_cases hlt : b0.length < o.length
          · simp [hlt] at h1
          · simp [hlt] at h1
      · rintro ⟨-, h⟩
        cases h
    · intro x hx
      rw [hstep] at hx
      obtain ⟨hA, hB, hC⟩ := (ih _).2 x hx
      cases hbv : best with
      | none =>
        rw [hbv] at hA hB
        dsimp only at hA hB
        have hox : o.length ≤ x.length := hB o rfl
        refine ⟨?_, ?_, ?_⟩
        · right
          refine ⟨?_, fun b0 hb0 => by cases hb0⟩
          rcases hA with h | ⟨h, -⟩
          · injection h with h
            rw [← h]
            exact List.mem_cons_self _ _
          · exact List.mem_cons_of_mem _ h
        · intro b0 hb0
          cases hb0
        · intro y hy
          rcases List.mem_cons.mp hy with rfl | hy
          · exact hox
          · exact hC y hy
      | some b0 =>
        rw [hbv] at hA hB
        dsimp only at hA hB
        by_cases hlt : b0.length < o.length
        · rw [if_pos hlt] at hA hB
          have hox : o.length ≤ x.length := hB o rfl
          refine ⟨?_, ?_, ?_⟩
          · right
            constructor
            · rcases hA with h | ⟨h, -⟩
              · injection h with h
                rw [← h]
                exact List.mem_cons_self _ _
              · exact List.mem_cons_of_mem _ h
            · intro b1 hb1
              injection hb1 with hb1
              rw [← hb1]
              omega
          · intro b1 hb1
            injection hb1 with hb1
            rw [← hb1]
            omega
          · intro y hy
            rcases List.mem_cons.mp hy with rfl | hy
            · exact hox
            · exact hC y hy
        · rw [if_neg hlt] at hA hB
          have hbx : b0.length ≤ x.length := hB b0 rfl
          refine ⟨?_, ?_, ?_⟩
          · rcases hA with h | ⟨h, hs⟩
            · left
              injection h with h
              rw [h]
            · right
              exact ⟨List.mem_cons_of_mem _ h, fun b1 hb1 => by
                injection hb1 with hb1
                rw [← hb1]
                exact hs b0 rfl⟩
          · intro b1 hb1
            injection hb1 with hb1
            rw [← hb1]
            exact hbx
          · intro y hy
            rcases List.mem_cons.mp hy with rfl | hy
            · omega
            · exact hC y hy

theorem endsAt_append_le {p t : List Char} {c : Char} {i : Nat} (hi : i ≤ t.length) :
    EndsAt p (t ++ [c]) i ↔ EndsAt p t i := by
  unfold EndsAt
  rw [List.take_append_of_le_length hi]

/-- Occurrences in `t ++ [c]` are occurrences in `t` plus suffixes of
`t ++ [c]` (the new ones ending at the last position). -/
theorem occurs_snoc {p t : List Char} {c : Char} :
    Occurs p (t ++ [c]) ↔ Occurs p t ∨ p <:+ t ++ [c] := by
  constructor
  · rintro ⟨i, hi⟩
    rcases le_or_lt i t.length with h | h
    · exact Or.inl ⟨i, (endsAt_append_le h).mp hi⟩
    · right
      unfold EndsAt at hi
      rw [List.take_of_length_le (by simp; omega)] at hi
      exact hi
  · rintro (⟨i, hi⟩ | h)
    · rcases le_or_lt i t.length with hle | hgt
      · exact ⟨i, (endsAt_append_le hle).mpr hi⟩
      · have hpt : p <:+ t := by
          unfold EndsAt at hi
          rw [List.take_of_length_le (by omega)] at hi
          exact hi
        refine ⟨t.length, ?_⟩
        unfold EndsAt
        rw [List.take_append_of_le_length (Nat.le_refl _), List.take_length]
        exact hpt
    · refine ⟨(t ++ [c]).length, ?_⟩
      unfold EndsAt
      rw [List.take_length]
      exact h

/-- One scan transition: from the node of the longest trie suffix `u` of the
consumed text `t`, `scanStep` lands on the node of the longest trie suffix
of `t ++ [c]`, whose outputs are exactly the patterns that are suffixes of
`t ++ [c]`. -/
theorem scan_step_spec {tns ns : List ACNode} {pats : List (List Char)}
    (ginv : GotoInv tns pats) (finv : FailsInv tns ns pats)
    {t u : List Char} {cur : Nat} (hls : LongSuffix tns t u)
    (hcur : follow tns 0 u = some cur) (c : Char) :
    ∃ v g, follow tns 0 v = some g ∧ scanStep ns cur c = g ∧
      LongSuffix tns (t ++ [c]) v ∧
      (∀ p, p ∈ (nd ns g).outputs ↔ p ∈ pats ∧ p <:+ t ++ [c]) := by
  have wf := ginv.wf
  obtain ⟨husuf, husm, humax⟩ := hls
  have hchain : ChainOK tns ns u := fun m t' h1 h2 _ => finv.fail_ok m t' h1 h2
  have hfuel : u.length < ns.length := by
    have h1 := follow_gain wf hcur
    have h2 := follow_lt_length wf hcur
    rw [finv.len_eq]
    omega
  obtain ⟨v, g, hv, hw, hcase⟩ :=
    walk_trans_spec finv.next_eq finv.len_eq wf c hcur hchain hfuel
  have hreduce : ∀ w, w <:+ t → SMem tns (w ++ [c]) → w <:+ u := by
    intro w hwt hwsm
    have hwsm' : SMem tns w := SMem_of_append hwsm
    exact suffix_comparable hwt husuf (humax w hwt hwsm')
  have hlsv : LongSuffix tns (t ++ [c]) v := by
    rcases hcase with ⟨v', hveq, hv'suf, hv'max⟩ | ⟨hvnil, hg0, hnone⟩
    · subst hveq
      refine ⟨suffix_snoc_of_suffix c (hv'suf.trans husuf), ⟨g, hv⟩, ?_⟩
      intro w' hw' hw'sm
      rcases suffix_snoc_cases hw' with rfl | ⟨w, rfl, hwt⟩
      · simp
      · have hwu : w <:+ u := hreduce w hwt hw'sm
        have := hv'max w hwu hw'sm
        simp only [List.length_append, List.length_cons, List.length_nil]
        omega
    · subst hvnil
      refine ⟨List.nil_suffix, ⟨g, hv⟩, ?_⟩
      intro w' hw' hw'sm
      rcases suffix_snoc_cases hw' with rfl | ⟨w, rfl, hwt⟩
      · exact Nat.le_refl _
      · exact absurd hw'sm (hnone w (hreduce w hwt (by exact hw'sm)))
  refine ⟨v, g, hv, hw, hlsv, ?_⟩
  intro p
  rw [finv.out_ok g v hv p]
  constructor
  · rintro ⟨hp, hpsuf⟩
    exact ⟨hp, hpsuf.trans hlsv.1⟩
  · rintro ⟨hp, hpsuf⟩
    refine ⟨hp, ?_⟩
    have hpsm : SMem tns p :=
      (ginv.strings_iff p).mpr (Or.inr ⟨p, hp, List.prefix_refl p⟩)
    exact suffix_comparable hpsuf hlsv.1 (hlsv.2.2 p hpsuf hpsm)

/-- Updating the running best with the outputs of the new scan node
maintains the best-match invariant across one consumed character. -/
theorem bestOK_step {pats : List (List Char)} {t : List Char} {c : Char}
    {best : Option (List Char)} {outs : List (List Char)}
    (hout : ∀ p, p ∈ outs ↔ p ∈ pats ∧ p <:+ t ++ [c])
    (hbest : BestOK pats t best) :
    BestOK pats (t ++ [c]) (updBest best outs) := by
  obtain ⟨hnone, hsome⟩ := hbest
  obtain ⟨hub_none, hub_some⟩ := updBest_spec outs best
  constructor
  · rw [hub_none]
    constructor
    · rintro ⟨hbn, hon⟩ p hp hocc
      rcases occurs_snoc.mp hocc with h | h
      · exact hnone.mp hbn p hp h
      · have hpo : p ∈ outs := (hout p).mpr ⟨hp, h⟩
        rw [hon] at hpo
        exact absurd hpo (List.not_mem_nil p)
    · intro h
      constructor
      · apply hnone.mpr
        intro p hp hocc
        exact h p hp (occurs_snoc.mpr (Or.inl hocc))
      · cases houts : outs with
        | nil => rfl
        | cons o os =>
          exfalso
          have ho : o ∈ outs := by
            rw [houts]
            exact List.mem_cons_self _ _
          obtain ⟨hop, hosuf⟩ := (hout o).mp ho
          exact h o hop (occurs_snoc.mpr (Or.inr hosuf))
  · intro b hb
    obtain ⟨hA, hB, hC⟩ := hub_some b hb
    have hold_le : ∀ p ∈ pats, Occurs p t → p.length ≤ b.length := by
      intro p hp hocc
      cases hbv : best with
      | none => exact absurd hocc (hnone.mp hbv p hp)
      | some b0 =>
        obtain ⟨-, -, hmax0, -⟩ := hsome b0 hbv
        exact le_trans (hmax0 p hp hocc) (hB b0 hbv)
    have hall_le : ∀ p ∈ pats, Occurs p (t ++ [c]) → p.length ≤ b.length := by
      intro p hp hocc
      rcases occurs_snoc.mp hocc with h | h
      · exact hold_le p hp h
      · exact hC p ((hout p).mpr ⟨hp, h⟩)
    rcases hA with hbb | ⟨hbo, hstrict⟩
    · obtain ⟨hbp, hbocc, hbmax, i, hile, hiend, hitie⟩ := hsome b hbb
      refine ⟨hbp, occurs_snoc.mpr (Or.inl hbocc), hall_le, i, ?_, ?_, ?_⟩
      · simp only [List.length_append, List.length_cons, List.length_nil]
        omega
      · exact (endsAt_append_le hile).mpr hiend
      · intro p hp hplen j hj
        rcases le_or_lt j t.length with hjle | hjgt
        · exact hitie p hp hplen j ((endsAt_append_le hjle).mp hj)
        · omega
    · obtain ⟨hbp, hbsuf⟩ := (hout b).mp hbo
      refine ⟨hbp, occurs_snoc.mpr (Or.inr hbsuf), hall_le, t.length + 1, ?_, ?_, ?_⟩
      · simp
      · unfold EndsAt
        rw [List.take_of_length_le (by simp)]
        exact hbsuf
      · intro p hp hplen j hj
        rcases le_or_lt j t.length with hjle | hjgt
        · exfalso
          have hpocc : Occurs p t := ⟨j, (endsAt_append_le hjle).mp hj⟩
          cases hbv : best with
          | none => exact hnone.mp hbv p hp hpocc
          | some b0 =>
            obtain ⟨-, -, hmax0, -⟩ := hsome b0 hbv
            have h1 := hmax0 p hp hpocc
            have h2 := hstrict b0 hbv
            omega
        · omega

/-- The scan loop invariant: consuming `rest` from the node of the longest
trie suffix of `t`, with a best satisfying `BestOK` for `t`, yields a best
satisfying `BestOK` for `t ++ rest`. -/
theorem scanChars_spec {tns ns : List ACNode} {pats : List (List Char)}
    (ginv : GotoInv tns pats) (finv : FailsInv tns ns pats) :
    ∀ (rest t u : List Char) (cur : Nat) (best : Option (List Char)),
    LongSuffix tns t u → follow tns 0 u = some cur → BestOK pats t best →
    BestOK pats (t ++ rest) (scanChars ns cur best rest) := by
  intro rest
  induction rest with
  | nil =>
    intro t u cur best _ _ hb
    rw [List.append_nil]
    exact hb
  | cons c rest ih =>
    intro t u cur best hls hcur hbest
    obtain ⟨v, g, hv, hw, hls', hout⟩ := scan_step_spec ginv finv hls hcur c
    simp only [scanChars]
    rw [hw]
    have hbest' : BestOK pats (t ++ [c]) (updBest best (nd ns g).outputs) :=
      bestOK_step hout hbest
    have happ : t ++ c :: rest = (t ++ [c]) ++ rest := by simp
    rw [happ]
    exact ih (t ++ [c]) v g (updBest best (nd ns g).outputs) hls' hv hbest'

theorem alookup_ainsert_self {α : Type} (key : String) (v : α) (l : List (String × α)) :
    alookup (ainsert key v l) key = some v := by
  induction l with
  | nil => simp [ainsert, alookup]
  | cons hd tl ih =>
    obtain ⟨k, v'⟩ := hd
    by_cases h : k = key
    · simp [ainsert, alookup, h]
    · simp [ainsert, alookup, h, ih]

theorem alookup_ainsert_ne {α : Type} (key key' : String) (v : α) (l : List (String × α))
    (h : key ≠ key') : alookup (ainsert key v l) key' = alookup l key' := by
  induction l with
  | nil => simp [ainsert, alookup, h]
  | cons hd tl ih =>
    obtain ⟨k, v'⟩ := hd
    by_cases hk : k = key
    · subst hk
      simp [ainsert, alookup, h]
    · simp [ainsert, alookup, hk, ih]

/-- The loop-body test of PEP1, spelled out as a proposition: exactly the
domination order of the spec (`read ⊆ {read,read_write,write}`,
`write ⊆ {write,read_write}`, `deploy ⊆ {deploy}`). -/
theorem dominates_iff (required granted : String) :
    dominates required granted = true ↔
      (required = "read" ∧ (granted = "read" ∨ granted = "read_write" ∨ granted = "write")) ∨
      (required = "write" ∧ (granted = "write" ∨ granted = "read_write")) ∨
      (required = "deploy" ∧ granted = "deploy") := by
  simp only [dominates, Bool.or_eq_true, Bool.and_eq_true, beq_iff_eq]
  tauto

/-! ### C2: PEP1 task authorization -/

/-- **C2.** For every user table, task table, identity and task:
`check_task_authorization` returns `false` when the identity or the task is
missing from its table, and for present identity/task it returns `true` iff
every required (tool, level) pair of the task is dominated by the identity's
granted level for that tool, under exactly the order required `read` ←
granted `read`/`read_write`/`write`, required `write` ← granted
`write`/`read_write`, required `deploy` ← granted `deploy`. -/
theorem C2_check_task_authorization_characterization
    (db : List (String × User)) (taskdb : List (String × Task)) (uid tname : String) :
    ((alookup db uid = none ∨ alookup taskdb tname = none) →
       check_task_authorization db taskdb uid tname = false) ∧
    (∀ user task, alookup db uid = some user → alookup taskdb tname = some task →
       (check_task_authorization db taskdb uid tname = true ↔
         ∀ p ∈ task.required_tools,
           (p.2 = "read" ∧ (getPermission user p.1 = "read" ∨
              getPermission user p.1 = "read_write" ∨ getPermission user p.1 = "write")) ∨
           (p.2 = "write" ∧ (getPermission user p.1 = "write" ∨
              getPermission user p.1 = "read_write")) ∨
           (p.2 = "deploy" ∧ getPermission user p.1 = "deploy"))) := by
  constructor
  · rintro (h | h)
    · simp [check_task_authorization, h]
    · cases hdb : alookup db uid <;> simp [check_task_authorization, hdb, h]
  · intro user task hu ht
    simp only [check_task_authorization, hu, ht, List.all_eq_true, dominates_iff]

/-- Witness for C2 at the configured tables: `sales01` is authorized for
`Lead_Generation`. -/
theorem C2_witness :
    check_task_authorization USER_DB TASK_POLICY_DB "sales01" "Lead_Generation" = true := by
  have h := (C2_check_task_authorization_characterization USER_DB TASK_POLICY_DB
      "sales01" "Lead_Generation").2
      ⟨"sales01", "Marco", "Sales", [("GitHub", "none"), ("FileSystem", "read"), ("CRM", "write")]⟩
      ⟨"Lead_Generation", [("CRM", "write")]⟩ (by decide) (by decide)
  exact h.mpr (by decide)

/-! ### C3: filesystem folder policy -/

/-- A `'..'` entry survives exactly the pathlib-parts normalization: it is in
the filtered parts list iff it is one of the raw `'/'`-split pieces. -/
theorem dotdot_mem_fsParts_iff (path : String) :
    ".." ∈ fsParts path ↔ ".." ∈ splitSlash path := by
  unfold fsParts pathParts
  simp only [List.filter_append, List.mem_append, List.mem_filter, List.filter_filter,
    decide_eq_true_iff]
  constructor
  · rintro (⟨hmem, -⟩ | ⟨hmem, -⟩)
    · split at hmem
      · simp at hmem
      · split at hmem <;> simp at hmem
    · exact hmem
  · intro hmem
    right
    refine ⟨hmem, by decide⟩

/-- **C3.** For every folder policy, identity and path string:
`check_filesystem_access` denies the empty path and any path containing a
parent-directory (`'..'`) segment; otherwise it grants access iff the first
parsed path segment names a folder present in the policy table whose allowed
list explicitly contains the identity. -/
theorem C3_check_filesystem_access_characterization
    (policy : List (String × List String)) (uid path : String) :
    (path = "" → check_filesystem_access policy uid path = false) ∧
    (".." ∈ splitSlash path → check_filesystem_access policy uid path = false) ∧
    (path ≠ "" → ".." ∉ splitSlash path →
      (check_filesystem_access policy uid path = true ↔
        ∃ folder rest allowed, fsParts path = folder :: rest ∧
          alookup policy folder = some allowed ∧ uid ∈ allowed)) := by
  refine ⟨fun h => by simp [check_filesystem_access, h], ?_, ?_⟩
  · intro hmem
    have h' : ".." ∈ fsParts path := (dotdot_mem_fsParts_iff path).mpr hmem
    by_cases hp : path = ""
    · simp [check_filesystem_access, hp]
    · simp [check_filesystem_access, hp, h']
  · intro hp hmem
    have h' : ".." ∉ fsParts path := fun hh => hmem ((dotdot_mem_fsParts_iff path).mp hh)
    simp only [check_filesystem_access, if_neg hp, decide_eq_true_iff, if_neg h']
    cases hfp : fsParts path with
    | nil => simp [hfp]
    | cons folder rest =>
      simp only [hfp]
      cases hpol : alookup policy folder with
      | none => simp [hpol, Option.getD]
      | some allowed =>
        simp only [hpol, Option.getD, decide_eq_true_iff]
        constructor
        · intro hm
          exact ⟨folder, rest, allowed, rfl, hpol, hm⟩
        · rintro ⟨f', r', a', heq, hpol', hm⟩
          obtain ⟨rfl, rfl⟩ : folder = f' ∧ rest = r' := by
            injection heq with h1 h2
            exact ⟨h1, h2⟩
          rw [hpol] at hpol'
          injection hpol' with h
          exact h ▸ hm

/-- Witness for C3: `eng01` may read under the `Engineering` folder of the
configured policy. -/
theorem C3_witness :
    check_filesystem_access FILESYSTEM_POLICY "eng01" "/Engineering/project/README.md" = true := by
  have h := (C3_check_filesystem_access_characterization FILESYSTEM_POLICY "eng01"
      "/Engineering/project/README.md").2.2 (by decide) (by decide)
  exact h.mpr ⟨"Engineering", ["project", "README.md"], ["eng01"], by decide, by decide, by decide⟩

/-! ### C4: parameter whitelist and sensitivity -/

theorem all_false_of_mem {α : Type} (l : List α) (p : α → Bool) (x : α)
    (hx : x ∈ l) (hpx : p x = false) : l.all p = false := by
  induction l with
  | nil => cases hx
  | cons hd tl ih =>
    rcases List.mem_cons.mp hx with h | h
    · subst h
      simp [List.all_cons, hpx]
    · simp [List.all_cons, ih h]

/-- **C4.** For every user table, folder policy, identity and ToolCall whose
tool has a parameter whitelist: a parameter name outside the whitelist makes
`check_tool_authorization` deny, and a parameter flagged sensitive makes it
deny unless the identity's granted level on that tool is `write` or
`read_write`. -/
theorem C4_param_whitelist_and_sensitivity
    (db : List (String × User)) (policy : List (String × List String))
    (uid : String) (tc : ToolCall) (tool_policy : List (String × Bool))
    (hpol : alookup TOOL_PARAM_POLICY tc.tool_name = some tool_policy) :
    ((∃ p ∈ tc.parameters, alookup tool_policy p.1 = none) →
       check_tool_authorization db policy uid tc = false) ∧
    ((∃ p ∈ tc.parameters, alookup tool_policy p.1 = some true) →
       userLevel db uid tc.tool_name ≠ "write" →
       userLevel db uid tc.tool_name ≠ "read_write" →
       check_tool_authorization db policy uid tc = false) := by
  constructor
  · rintro ⟨p, hmem, hnone⟩
    cases hdb : alookup db uid with
    | none => simp [check_tool_authorization, hdb]
    | some user =>
      have hpc : param_check user tc = false := by
        unfold param_check
        rw [hpol]
        exact all_false_of_mem _ _ p hmem (by simp [hnone])
      simp [check_tool_authorization, hdb, hpc]
  · rintro ⟨p, hmem, hsens⟩ hw hrw
    cases hdb : alookup db uid with
    | none => simp [check_tool_authorization, hdb]
    | some user =>
      have hul : getPermission user tc.tool_name = userLevel db uid tc.tool_name := by
        simp [userLevel, hdb]
      have hpc : param_check user tc = false := by
        unfold param_check
        rw [hpol]
        refine all_false_of_mem _ _ p hmem ?_
        simp only [hsens, hul, Bool.not_true, Bool.false_or]
        simp only [Bool.or_eq_false_iff, beq_eq_false_iff_ne, ne_eq]
        exact ⟨hw, hrw⟩
      simp [check_tool_authorization, hdb, hpc]

/-- Witness for C4: an off-whitelist parameter (`hack`) on a GitHub call by
`eng01` is denied, and a sensitive `script` parameter on a DB call by `it01`
(who holds no DB level) is denied. -/
theorem C4_witness :
    check_tool_authorization USER_DB FILESYSTEM_POLICY "eng01"
      ⟨"GitHub", "write_code", [("repo", "main"), ("hack", "x")]⟩ = false ∧
    check_tool_authorization USER_DB FILESYSTEM_POLICY "it01"
      ⟨"DB", "run_script", [("script", "drop table x")]⟩ = false := by
  constructor
  · exact (C4_param_whitelist_and_sensitivity USER_DB FILESYSTEM_POLICY "eng01"
      ⟨"GitHub", "write_code", [("repo", "main"), ("hack", "x")]⟩
      [("repo", false), ("content", true)] (by decide)).1
      ⟨("hack", "x"), by decide, by decide⟩
  · exact (C4_param_whitelist_and_sensitivity USER_DB FILESYSTEM_POLICY "it01"
      ⟨"DB", "run_script", [("script", "drop table x")]⟩
      [("script", true), ("approval_id", false)] (by decide)).2
      ⟨("script", "drop table x"), by decide, by decide⟩ (by decide) (by decide)

/-! ### C5: the Secrets capability gate -/

/-- **C5 (corrected).** For a `Secrets` ToolCall the capability gate passes
only for granted capability `read` or `write`: any other value — `none`,
absence, but also e.g. `read_write` — makes `check_tool_authorization` deny;
and when the capability is `read` or `write` the gate imposes nothing
further (the result is that of the remaining checks). -/
theorem C5_secrets_gate_characterization
    (db : List (String × User)) (policy : List (String × List String))
    (uid : String) (tc : ToolCall) (user : User)
    (hdb : alookup db uid = some user) (htool : tc.tool_name = "Secrets") :
    ((getPermission user "Secrets" ≠ "read" ∧ getPermission user "Secrets" ≠ "write") →
       check_tool_authorization db policy uid tc = false) ∧
    ((getPermission user "Secrets" = "read" ∨ getPermission user "Secrets" = "write") →
       check_tool_authorization db policy uid tc =
         (fs_check policy uid tc && param_check user tc && level_check user tc)) := by
  constructor
  · rintro ⟨hr, hw⟩
    have hsc : secrets_check user tc = false := by
      simp only [secrets_check, htool, bne_self_eq_false, Bool.false_or]
      simp only [Bool.or_eq_false_iff, beq_eq_false_iff_ne, ne_eq]
      exact ⟨hr, hw⟩
    simp [check_tool_authorization, hdb, hsc]
  · intro hcap
    have hsc : secrets_check user tc = true := by
      simp only [secrets_check, htool, bne_self_eq_false, Bool.false_or]
      rcases hcap with h | h <;> simp [h]
    simp [check_tool_authorization, hdb, hsc, Bool.and_assoc]

/-- Counterexample to C5 as stated: a user whose `Secrets` capability is the
explicit non-`none` value `read_write` is denied a Secrets read — the gate
accepts only the literal levels `read` and `write` — while the same call with
capability `read` passes every check. -/
theorem C5_counterexample :
    getPermission ⟨"sec01", "Sam", "Ops", [("Secrets", "read_write")]⟩ "Secrets" = "read_write" ∧
    check_tool_authorization [("sec01", ⟨"sec01", "Sam", "Ops", [("Secrets", "read_write")]⟩)] []
      "sec01" ⟨"Secrets", "read_secret", [("name", "api_key")]⟩ = false ∧
    check_tool_authorization [("sec01", ⟨"sec01", "Sam", "Ops", [("Secrets", "read")]⟩)] []
      "sec01" ⟨"Secrets", "read_secret", [("name", "api_key")]⟩ = true := by
  refine ⟨by decide, by decide, by decide⟩

/-- Witness for the corrected C5: `eng01` holds no `Secrets` entry (capability
defaults to `none`) and is denied a Secrets read. -/
theorem C5_witness :
    check_tool_authorization USER_DB FILESYSTEM_POLICY "eng01"
      ⟨"Secrets", "read_secret", [("name", "api_key")]⟩ = false :=
  (C5_secrets_gate_characterization USER_DB FILESYSTEM_POLICY "eng01"
    ⟨"Secrets", "read_secret", [("name", "api_key")]⟩
    ⟨"eng01", "Alex", "Engineering",
      [("GitHub", "write"), ("FileSystem", "read_write"), ("Deployment", "deploy")]⟩
    (by decide) rfl).1 ⟨by decide, by decide⟩

/-! ### C8: router confidence scoring -/

theorem lowerStr_length (s : String) : (lowerStr s).length = s.length := by
  show (s.data.map Char.toLower).length = s.data.length
  exact List.length_map s.data Char.toLower

/-- **C8.** `route_prompt`: when a matched text was found, the confidence is
(matched-text length) / max(prompt length, 1); at or above the threshold the
matched text's task is returned with that score and no error, below it no
task with the score and error `no match (below threshold)`; when nothing
matched, no task, a null score and error `no match`. -/
theorem C8_route_prompt_scoring
    (pattern_to_task : List (String × String)) (matcher_out : Option String)
    (items : List RefItem) (prompt : String) (threshold : ℚ) :
    (∀ p, best_pat_of matcher_out items (lowerStr prompt) = some p → p ≠ "" →
       route_prompt pattern_to_task matcher_out items prompt threshold =
         (if threshold ≤ (p.length : ℚ) / ((max prompt.length 1 : ℕ) : ℚ) then
            ⟨alookup pattern_to_task p,
             some ((p.length : ℚ) / ((max prompt.length 1 : ℕ) : ℚ)), none⟩
          else
            ⟨none, some ((p.length : ℚ) / ((max prompt.length 1 : ℕ) : ℚ)),
             some "no match (below threshold)"⟩)) ∧
    (best_pat_of matcher_out items (lowerStr prompt) = none →
       route_prompt pattern_to_task matcher_out items prompt threshold =
         ⟨none, none, some "no match"⟩) := by
  constructor
  · intro p hbp hne
    unfold route_prompt
    dsimp only
    rw [hbp]
    dsimp only
    rw [if_neg hne, lowerStr_length]
  · intro hbp
    unfold route_prompt
    dsimp only
    rw [hbp]

/-- Witness for C8: a matched text of length 7 against an 11-character prompt
scores 7/11 ≥ 1/2 and resolves to its task. -/
theorem C8_witness :
    route_prompt [("fix bug", "Feature_Development")] (some "fix bug") [] "Fix bug now"
      (1 / 2) = ⟨some "Feature_Development", some ((7 : ℚ) / 11), none⟩ := by
  have h := (C8_route_prompt_scoring [("fix bug", "Feature_Development")] (some "fix bug") []
      "Fix bug now" (1 / 2)).1 "fix bug" rfl (by decide)
  rw [h]
  have h7 : "fix bug".length = 7 := by decide
  have h11 : "Fix bug now".length = 11 := by decide
  rw [h7, h11]
  norm_num [alookup]

/-! ### C1: the high-risk approval gate of the dispatcher -/

/-- **C1.** For every configuration, store, fresh id, identity and high-risk
ToolCall that passes PEP2: without an `approval_id` parameter the dispatcher
creates a new pending approval under the fresh id and returns
`pending_approval` carrying that id, invoking no back-end; with an
`approval_id` that no approved record matches it returns `pending_approval`,
invoking no back-end; and a back-end is invoked only when the call references
a stored approval whose status is `approved`. -/
theorem C1_high_risk_requires_approved_approval
    (db : List (String × User)) (policy : List (String × List String))
    (store : ApprovalStore) (fresh uid : String) (tc : ToolCall)
    (hrisk : requires_approval tc.tool_name tc.action = true)
    (hauth : check_tool_authorization db policy uid tc = true) :
    (alookup tc.parameters "approval_id" = none →
       execute_tool_call db policy store fresh uid tc =
         ⟨⟨"pending_approval", some "Action requires approval", none, some fresh⟩,
          ainsert fresh ⟨"pending", uid, ⟨tc.tool_name, tc.action, tc.parameters⟩, none⟩ store,
          none⟩) ∧
    (∀ aid, alookup tc.parameters "approval_id" = some aid →
       (∀ rec, alookup store aid = some rec → rec.status ≠ "approved") →
       (execute_tool_call db policy store fresh uid tc).result.status = "pending_approval" ∧
       (execute_tool_call db policy store fresh uid tc).dispatched = none) ∧
    ((execute_tool_call db policy store fresh uid tc).dispatched ≠ none →
       ∃ aid rec, alookup tc.parameters "approval_id" = some aid ∧
         alookup store aid = some rec ∧ rec.status = "approved") := by
  refine ⟨?_, ?_, ?_⟩
  · intro hpid
    simp [execute_tool_call, hauth, hrisk, hpid, create_approval]
  · intro aid hpid hna
    by_cases haid : aid = ""
    · subst haid
      simp [execute_tool_call, hauth, hrisk, hpid, create_approval]
    · cases halk : alookup store aid with
      | none => simp [execute_tool_call, hauth, hrisk, hpid, haid, halk]
      | some rec =>
        have hne := hna rec halk
        simp [execute_tool_call, hauth, hrisk, hpid, haid, halk, hne]
  · intro hd
    cases hpid : alookup tc.parameters "approval_id" with
    | none =>
      exfalso
      apply hd
      simp [execute_tool_call, hauth, hrisk, hpid, create_approval]
    | some aid =>
      by_cases haid : aid = ""
      · exfalso
        apply hd
        subst haid
        simp [execute_tool_call, hauth, hrisk, hpid, create_approval]
      · cases halk : alookup store aid with
        | none =>
          exfalso
          apply hd
          simp [execute_tool_call, hauth, hrisk, hpid, haid, halk]
        | some rec =>
          by_cases happ : rec.status = "approved"
          · exact ⟨aid, rec, rfl, halk, happ⟩
          · exfalso
            apply hd
            simp [execute_tool_call, hauth, hrisk, hpid, haid, halk, happ]

/-- Witness for C1: `eng01` submitting `Deployment.deploy` without an
approval id gets `pending_approval` with the generated id, a pending record,
and no back-end invocation. -/
theorem C1_witness :
    execute_tool_call USER_DB FILESYSTEM_POLICY [] "uuid-A" "eng01"
      ⟨"Deployment", "deploy", [("env", "staging")]⟩ =
      ⟨⟨"pending_approval", some "Action requires approval", none, some "uuid-A"⟩,
       ainsert "uuid-A"
         ⟨"pending", "eng01", ⟨"Deployment", "deploy", [("env", "staging")]⟩, none⟩ [],
       none⟩ :=
  (C1_high_risk_requires_approved_approval USER_DB FILESYSTEM_POLICY [] "uuid-A" "eng01"
    ⟨"Deployment", "deploy", [("env", "staging")]⟩ (by decide) (by decide)).1 (by decide)

/-! ### C6: unknown tool names -/

/-- Counterexample to C6 as stated: a ToolCall naming the unrecognized tool
`JIRA` from the configured identity `eng01` yields status `denied` (PEP2
denies first: no identity holds a level for an unrecognized tool name), not
the claimed `{status: error, message: Unknown tool}`. -/
theorem C6_counterexample :
    (execute_tool_call USER_DB FILESYSTEM_POLICY [] "uuid-X" "eng01"
      ⟨"JIRA", "read_ticket", []⟩).result.status = "denied" ∧
    (execute_tool_call USER_DB FILESYSTEM_POLICY [] "uuid-X" "eng01"
      ⟨"JIRA", "read_ticket", []⟩).result.status ≠ "error" ∧
    (execute_tool_call USER_DB FILESYSTEM_POLICY [] "uuid-X" "eng01"
      ⟨"JIRA", "read_ticket", []⟩).result.message ≠ some "Unknown tool" := by
  refine ⟨by decide, by decide, by decide⟩

/-- **C6 (corrected).** For a ToolCall naming an unrecognized tool,
`execute_tool_call` reaches the `{status: error, message: Unknown tool}`
branch — with no back-end invoked and the store untouched — only when PEP2
passes (which needs an identity holding a sufficient granted level under
that unrecognized name); when PEP2 denies, as it does for every identity of
the configured `USER_DB`, the result is status `denied`. -/
theorem C6_unknown_tool_characterization
    (db : List (String × User)) (policy : List (String × List String))
    (store : ApprovalStore) (fresh uid : String) (tc : ToolCall)
    (hunk : tc.tool_name ∉ RECOGNIZED_TOOLS) :
    (check_tool_authorization db policy uid tc = true →
       execute_tool_call db policy store fresh uid tc =
         ⟨⟨"error", some "Unknown tool", none, none⟩, store, none⟩) ∧
    (check_tool_authorization db policy uid tc = false →
       (execute_tool_call db policy store fresh uid tc).result =
         ⟨"denied", some "Not authorized to perform tool call", none, none⟩) := by
  simp only [RECOGNIZED_TOOLS, List.mem_cons, List.not_mem_nil, or_false, not_or] at hunk
  obtain ⟨h1, h2, h3, h4, h5, h6⟩ := hunk
  have hreq : requires_approval tc.tool_name tc.action = false := by
    simp [requires_approval, h3, h4]
  have hdis : dispatch_tool_call db policy uid tc =
      (⟨"error", some "Unknown tool", none, none⟩, none) := by
    simp [dispatch_tool_call, h1, h2, h3, h4, h5, h6]
  constructor
  · intro hauth
    simp [execute_tool_call, hauth, hreq, hdis]
  · intro hauth
    simp [execute_tool_call, hauth]

/-- Witness for the corrected C6: a hypothetical identity granted `write` on
the unrecognized tool name `JIRA` passes PEP2 and receives the
`Unknown tool` error without any back-end call. -/
theorem C6_witness :
    execute_tool_call [("u1", ⟨"u1", "U", "Ops", [("JIRA", "write")]⟩)] [] [] "uuid-Y" "u1"
      ⟨"JIRA", "update_ticket", []⟩ =
      ⟨⟨"error", some "Unknown tool", none, none⟩, [], none⟩ :=
  (C6_unknown_tool_characterization [("u1", ⟨"u1", "U", "Ops", [("JIRA", "write")]⟩)] [] []
    "uuid-Y" "u1" ⟨"JIRA", "update_ticket", []⟩ (by decide)).1 (by decide)

/-! ### C9: approval lifecycle monotonicity -/

/-- **C9.** The approval lifecycle is monotonic: `create_approval` yields a
pending record under the returned id; `approve_approval` on an absent id
returns `false` and leaves the store unchanged; on a present id it marks the
record approved (recording the approver) and returns `true`; and once a
record is approved it stays approved — and is never deleted — under any
further sequence of creates (with fresh uuids) and approves. -/
theorem C9_approval_lifecycle_monotonic
    (store : ApprovalStore) (aid requested_by approver : String) (tcall : ToolSnapshot) :
    ((create_approval store aid requested_by tcall).2 = aid ∧
     alookup (create_approval store aid requested_by tcall).1 aid =
       some ⟨"pending", requested_by, tcall, none⟩) ∧
    (alookup store aid = none → approve_approval store aid approver = (false, store)) ∧
    (∀ rec, alookup store aid = some rec →
       (approve_approval store aid approver).1 = true ∧
       alookup (approve_approval store aid approver).2 aid =
         some { rec with status := "approved", approved_by := some approver }) ∧
    (∀ ops rec, alookup store aid = some rec → rec.status = "approved" →
       FreshCreates store ops →
       ∃ rec', alookup (applyOps store ops) aid = some rec' ∧ rec'.status = "approved") := by
  refine ⟨⟨rfl, alookup_ainsert_self aid _ store⟩, ?_, ?_, ?_⟩
  · intro h
    simp [approve_approval, h]
  · intro rec h
    simp [approve_approval, h, alookup_ainsert_self]
  · intro ops
    induction ops generalizing store with
    | nil =>
      intro rec h hst _
      exact ⟨rec, h, hst⟩
    | cons op rest ih =>
      intro rec h hst hfresh
      obtain ⟨hop, hrest⟩ := hfresh
      cases op with
      | createOp f rb tcl =>
        have hf : alookup store f = none := hop
        have hne : f ≠ aid := by
          intro heq
          rw [heq, h] at hf
          cases hf
        have hpres : alookup (applyOp store (StoreOp.createOp f rb tcl)) aid = some rec := by
          simpa [applyOp, create_approval, alookup_ainsert_ne f aid _ store hne] using h
        exact ih _ _ hpres hst hrest
      | approveOp a ap =>
        by_cases hne : a = aid
        · subst hne
          have hpres : alookup (applyOp store (StoreOp.approveOp a ap)) a =
              some { rec with status := "approved", approved_by := some ap } := by
            simp [applyOp, approve_approval, h, alookup_ainsert_self]
          exact ih _ _ hpres rfl hrest
        · have hpres : alookup (applyOp store (StoreOp.approveOp a ap)) aid = some rec := by
            cases halk : alookup store a with
            | none => simpa [applyOp, approve_approval, halk] using h
            | some r =>
              simpa [applyOp, approve_approval, halk,
                alookup_ainsert_ne a aid _ store hne] using h
          exact ih _ _ hpres hst hrest

/-- Witness for C9: after approving `a1`, a further fresh create and an
approve of an unrelated id leave `a1` approved. -/
theorem C9_witness :
    ∃ rec', alookup (applyOps
        [("a1", ⟨"approved", "eng01", ⟨"Deployment", "deploy", []⟩, some "mgr01"⟩)]
        [StoreOp.createOp "a2" "it01" ⟨"DB", "migrate", []⟩,
         StoreOp.approveOp "a2" "mgr02"]) "a1" = some rec' ∧
      rec'.status = "approved" :=
  (C9_approval_lifecycle_monotonic
    [("a1", ⟨"approved", "eng01", ⟨"Deployment", "deploy", []⟩, some "mgr01"⟩)]
    "a1" "eng01" "mgr01" ⟨"Deployment", "deploy", []⟩).2.2.2
    [StoreOp.createOp "a2" "it01" ⟨"DB", "migrate", []⟩,
     StoreOp.approveOp "a2" "mgr02"]
    ⟨"approved", "eng01", ⟨"Deployment", "deploy", []⟩, some "mgr01"⟩
    (by decide) rfl (by exact ⟨by decide, by decide, trivial⟩)

/-! ### C10: PEP2 fails closed on an unknown identity -/

/-- **C10.** For every user table, folder policy, user id absent from the user
table, and every ToolCall whatsoever, `check_tool_authorization` denies: the
identity lookup is the first gate, so no filesystem, action, parameter or
level check can grant anything to an unknown identity. -/
theorem C10_unknown_identity_fails_closed
    (db : List (String × User)) (policy : List (String × List String))
    (uid : String) (tc : ToolCall) (h : alookup db uid = none) :
    check_tool_authorization db policy uid tc = false := by
  simp [check_tool_authorization, h]

/-- Witness for C10: an id that is not in the configured `USER_DB` is denied
a read that every configured identity could perform. -/
theorem C10_witness :
    check_tool_authorization USER_DB FILESYSTEM_POLICY "mallory"
      ⟨"GitHub", "read_repo", [("repo", "main")]⟩ = false :=
  C10_unknown_identity_fails_closed USER_DB FILESYSTEM_POLICY "mallory"
    ⟨"GitHub", "read_repo", [("repo", "main")]⟩ (by decide)

/-- **C7.** `find_best_match` on the automaton built from a sequence of
build items returns no match exactly when no built pattern occurs as a
contiguous substring of the query (in particular whenever the query is
empty or no pattern was built); any returned match is a built pattern
occurring in the query, of maximal length among all occurring patterns, and
its recorded end position is no later than any end position of any
equal-length built pattern — the scan keeps the first occurrence among
ties; and `pattern_to_task` maps each normalized pattern to the task of the
first build item with that text. -/
theorem C7_find_best_match_correct (items : List RefItem) (lprompt : String) :
    (find_best_match (build items) lprompt = none ↔
      ∀ p ∈ patternsOf items, ¬ Occurs p lprompt.data) ∧
    (∀ b, find_best_match (build items) lprompt = some b →
      b.data ∈ patternsOf items ∧ Occurs b.data lprompt.data ∧
      (∀ p ∈ patternsOf items, Occurs p lprompt.data → p.length ≤ b.data.length) ∧
      (∃ i, i ≤ lprompt.data.length ∧ EndsAt b.data lprompt.data i ∧
        ∀ p ∈ patternsOf items, p.length = b.data.length →
          ∀ j, EndsAt p lprompt.data j → i ≤ j)) ∧
    (∀ p, alookup (build items).pattern_to_task p = firstTaskFor items p) := by
  obtain ⟨ginv, hptt⟩ := buildGoto_spec items
  have finv : FailsInv (buildGoto items).1 (build items).nodes (patternsOf items) :=
    buildFails_spec ginv
  have hno_nil : ∀ p ∈ patternsOf items, ¬ Occurs p ([] : List Char) := by
    intro p hp hocc
    obtain ⟨i, hi⟩ := hocc
    unfold EndsAt at hi
    rw [List.take_nil] at hi
    exact ginv.pats_nonnil p hp (List.suffix_nil.mp hi)
  by_cases hemp : lprompt = ""
  · subst hemp
    have hdata : ("" : String).data = [] := rfl
    have hfn : find_best_match (build items) "" = none := by
      rw [find_best_match, if_pos (Or.inl rfl)]
    refine ⟨?_, ?_, hptt⟩
    · rw [hfn, hdata]
      exact ⟨fun _ => hno_nil, fun _ => rfl⟩
    · intro b hb
      rw [hfn] at hb
      cases hb
  · have hguard : ¬(lprompt = "" ∨ (build items).nodes = []) := by
      rintro (h | h)
      · exact hemp h
      · have h1 := finv.len_eq
        rw [h] at h1
        have h2 : 0 < (buildGoto items).1.length := List.length_pos.mpr ginv.wf.nonnil
        simp at h1
        omega
    have hls0 : LongSuffix (buildGoto items).1 [] [] := by
      refine ⟨List.nil_suffix, ⟨0, rfl⟩, ?_⟩
      intro u' hu' _
      rw [List.suffix_nil.mp hu']
    have hbest0 : BestOK (patternsOf items) [] none := by
      constructor
      · exact ⟨fun _ => hno_nil, fun _ => rfl⟩
      · intro b hb
        cases hb
    have hscan := scanChars_spec ginv finv lprompt.data [] [] 0 none hls0 rfl hbest0
    rw [List.nil_append] at hscan
    obtain ⟨hsn, hss⟩ := hscan
    have hfb : find_best_match (build items) lprompt =
        (scanChars (build items).nodes 0 none lprompt.data).map
          (fun cs => String.mk cs) := by
      rw [find_best_match, if_neg hguard]
    refine ⟨?_, ?_, hptt⟩
    · rw [hfb, Option.map_eq_none']
      exact hsn
    · intro b hb
      rw [hfb, Option.map_eq_some'] at hb
      obtain ⟨cs, hcs, hmk⟩ := hb
      have hbd : b.data = cs := by rw [← hmk]
      rw [hbd]
      exact hss cs hcs

/-- Witness for C7 at a concrete automaton: over the patterns `abc` and
`bcd`, the query `xabcd` matches `abc` — a built pattern that occurs in the
query and whose length dominates every occurring pattern. -/
theorem C7_witness :
    find_best_match (build [⟨"T1", "abc"⟩, ⟨"T2", "bcd"⟩]) "xabcd" = some "abc" ∧
    "abc".data ∈ patternsOf [⟨"T1", "abc"⟩, ⟨"T2", "bcd"⟩] ∧
    Occurs "abc".data "xabcd".data ∧
    (∀ p ∈ patternsOf [⟨"T1", "abc"⟩, ⟨"T2", "bcd"⟩],
      Occurs p "xabcd".data → p.length ≤ "abc".data.length) := by
  have hfb : find_best_match (build [⟨"T1", "abc"⟩, ⟨"T2", "bcd"⟩]) "xabcd"
      = some "abc" := by decide
  obtain ⟨-, hsome, -⟩ :=
    C7_find_best_match_correct [⟨"T1", "abc"⟩, ⟨"T2", "bcd"⟩] "xabcd"
  obtain ⟨hmem, hocc, hmax, -⟩ := hsome "abc" hfb
  exact ⟨hfb, hmem, hocc, hmax⟩

end Tbac
